import Mathlib

/-!
# Indonesian stemmer (`stemmer.go`): shallow embedding and verified properties

The Go code works on `[]byte` holding UTF-8 text and matches it against
regular expressions.  Here a word is a list of characters, and every regular
expression of the source is written as an executable matcher over such lists.

* The root-word dictionary `rootWords` (a Go map whose values are never read)
  is the list of its keys.
* `strings.ToLower` maps a string character by character through
  `unicode.ToLower`; that character map is the parameter `lc`.
-/

namespace Stemmer

/-- A word: the characters of a Go string. -/
abbrev Word := List Char

/-- The characters of a string literal. -/
abbrev str (s : String) : Word := s.toList

/-! ## Regular-expression matchers -/

/-- Character class `[...]` listing its members, e.g. `[aiueo]`. -/
def oneOf (s : String) (c : Char) : Bool := s.toList.contains c

/-- Negated character class `[^...]`; matches every other character, newline included. -/
def noneOf (s : String) (c : Char) : Bool := !(s.toList.contains c)

/-- Class `\S`: every character except tab, newline, form feed, carriage return, space. -/
def nonSpace (c : Char) : Bool := noneOf "\t\n\x0c\r " c

/-- Class `[aiueo]`. -/
def vowel (c : Char) : Bool := oneOf "aiueo" c

/-- Class `[a-z\-]`. -/
def lowerOrHyphen (c : Char) : Bool := c.isLower || c == '-'

/-- A literal such as `ber` seen as a sequence of one-character classes. -/
def lits (s : String) : List (Char → Bool) := s.toList.map (fun a c => c == a)

/-- Pattern `^c1c2...cn`: the word begins with characters matching the classes in
order (nothing is required of what follows). -/
def startsWith : List (Char → Bool) → Word → Bool
  | [], _ => true
  | _ :: _, [] => false
  | p :: ps, c :: cs => p c && startsWith ps cs

/-- Pattern `x+post` at the start of the word: one or more characters of class
`plus`, then the classes of `post`. -/
def matchPlus (plus : Char → Bool) (post : List (Char → Bool)) : Word → Bool
  | [] => false
  | c :: cs => plus c && (startsWith post cs || matchPlus plus post cs)

/-- Pattern `^pre(x+)post`. -/
def startsWithPlus (pre : List (Char → Bool)) (plus : Char → Bool)
    (post : List (Char → Bool)) (w : Word) : Bool :=
  startsWith pre w && matchPlus plus post (w.drop pre.length)

/-- Pattern `([a-z\-]+)(s1|s2|...)$` matched against a whole remainder: one or more
characters of `[a-z\-]`, then one of the alternatives, then the end of the text. -/
def matchMiddleEnd (alts : List Word) : Word → Bool
  | [] => false
  | c :: cs => lowerOrHyphen c && (alts.contains cs || matchMiddleEnd alts cs)

/-- Pattern `^(p1|p2|...)([a-z\-]+)(s1|s2|...)$`. -/
def matchAffixes (pres : List Word) (alts : List Word) (w : Word) : Bool :=
  pres.any (fun p => p.isPrefixOf w && matchMiddleEnd alts (w.drop p.length))

/-- Pattern `(s1|s2|...)$`: the word ends with one of the alternatives. -/
def endsWithAny (alts : List Word) (w : Word) : Bool :=
  alts.any (fun s => s.isSuffixOf w)

/-- `ReplaceAll(word, "")` for the pattern `(s1|s2|...)$`: the matching ending is
deleted; a word matching none is returned as it is.  (In every pattern of the
source no word ends with two of the alternatives.) -/
def removeEnd : List Word → Word → Word
  | [], w => w
  | s :: ss, w => if s.isSuffixOf w then w.take (w.length - s.length) else removeEnd ss w

/-- `ReplaceAll(word, r)` for the pattern `^(p1|p2|...)`: anchored at the start, so
there is at most one match; the matched literal is replaced by `r`, and a word
matching none is returned as it is. -/
def replaceAtStart : List Word → Word → Word → Word
  | [], _, w => w
  | p :: ps, r, w => if p.isPrefixOf w then r ++ w.drop p.length else replaceAtStart ps r w

/-- `ReplaceAll(word, "")` for the pattern `^([^aiueo])e`. -/
def removeConsonantE : Word → Word
  | c :: 'e' :: rest => if noneOf "aiueo" c then rest else c :: 'e' :: rest
  | w => w

/-- The test of line 213, `^([^aiueo])e\1[aiueo]\S{1,}`.  The back-reference `\1` is
not part of the syntax accepted by Go's `regexp` package: the pattern does not
compile, `regexp.Match` answers `false` together with an error, and the error is
discarded.  The test is therefore false for every word. -/
def matchReduplicative (_word : Word) : Bool := false

/-! ## Dictionary and lower-casing -/

/-- `strings.ToLower`, with `lc` the character map `unicode.ToLower`. -/
def ToLower (lc : Char → Char) (w : Word) : Word := w.map lc

/-- The statement `m[key] = value` on a Go map held as the list of its entries, one
entry per key: an entry with the same key is replaced. -/
def mapSet (m : List (Word × Nat)) (key : Word) (value : Nat) : List (Word × Nat) :=
  (key, value) :: m.filter (fun e => e.1 != key)

/-- `InitRootWords`, for the word list `data` (a constant declared outside the
source file): `strings.Split(data, " ")` gives the pieces of `data` between
single spaces, and the loop stores each piece `words[k]` as a key, with value
`k`.  The dictionary is the list of the keys of the resulting map. -/
def InitRootWords (data : Word) : List Word :=
  let words := data.splitOn ' '
  let rootWords := words.enum.foldl (fun m kw => mapSet m kw.2 kw.1) []
  rootWords.map Prod.fst

/-- `IsRootWord`: membership in the dictionary. -/
def IsRootWord (rootWords : List Word) (word : Word) : Bool := decide (word ∈ rootWords)

/-! ## Guard predicates -/

/-- `isRulePrecedence`. -/
def isRulePrecedence (word : Word) : Bool :=
  if matchAffixes [str "be"] [str "lah", str "an"] word then true
  else if matchAffixes [str "di", str "me", str "pe", str "te"] [str "i"] word then true
  else false

/-- `isDisallowedPrefixSuffixes`. -/
def isDisallowedPrefixSuffixes (word : Word) : Bool :=
  if matchAffixes [str "be"] [str "i"] word then true
  else if matchAffixes [str "di"] [str "an"] word then true
  else if matchAffixes [str "ke"] [str "i", str "kan"] word then true
  else if matchAffixes [str "me"] [str "an"] word then true
  else if matchAffixes [str "se"] [str "i", str "kan"] word then true
  else if matchAffixes [str "te"] [str "an"] word then true
  else false

/-! ## Suffix removers -/

/-- Alternatives of `([klt]ah|pun|[km]u|nya)$`. -/
def inflectionSuffixes : List Word :=
  [str "kah", str "lah", str "tah", str "pun", str "ku", str "mu", str "nya"]

/-- Alternatives of `([km]u|nya)$`. -/
def possessivePronouns : List Word := [str "ku", str "mu", str "nya"]

/-- `removeInflectionSuffixes`. -/
def removeInflectionSuffixes (word : Word) : Word :=
  if endsWithAny inflectionSuffixes word then
    let infSuf := removeEnd inflectionSuffixes word
    if endsWithAny possessivePronouns infSuf then
      let posPron := removeEnd possessivePronouns infSuf
      posPron
    else infSuf
  else word

/-- `removeDerivationSuffixes`.  The variable `base` of the source starts empty and
is overwritten by each pattern that matches; the guard at the end reads it. -/
def removeDerivationSuffixes (rootWords : List Word) (word : Word) : Word :=
  let base1 : Word := if endsWithAny [str "kan"] word then removeEnd [str "kan"] word else []
  if endsWithAny [str "kan"] word && IsRootWord rootWords base1 then base1
  else
    let base2 : Word :=
      if endsWithAny [str "an", str "i"] word then removeEnd [str "an", str "i"] word else base1
    if endsWithAny [str "an", str "i"] word && IsRootWord rootWords base2 then base2
    else if isDisallowedPrefixSuffixes base2 then word
    else word

/-- `removeDerivationPeople`. -/
def removeDerivationPeople (rootWords : List Word) (word : Word) : Word :=
  let base1 : Word :=
    if endsWithAny [str "man", str "wan"] word then removeEnd [str "man", str "wan"] word else []
  if endsWithAny [str "man", str "wan"] word && IsRootWord rootWords base1 then base1
  else
    let base2 : Word := if endsWithAny [str "wati"] word then removeEnd [str "wati"] word else base1
    if endsWithAny [str "wati"] word && IsRootWord rootWords base2 then base2
    else if isDisallowedPrefixSuffixes base2 then word
    else word

/-! ## Prefix remover

Inside `removeDerivationPrefixes` every rule has the same shape: a candidate is
computed from `word` by one `ReplaceAll`, it is returned if it is a root, else
its form without derivation suffix is stored in `strRemovedDerivSuff` and
returned if it is a root, else the next rule is tried.  A branch of the source
is therefore given by the list of its candidates, in source order. -/

/-- What a block of rules does: it returns from the function with a value, or
control falls through with the current value of `strRemovedDerivSuff`. -/
inductive Flow where
  | ret (result : Word)
  | next (strRemovedDerivSuff : Word)
  deriving DecidableEq, Repr

/-- The rules of a branch run in order.  For each candidate `c`:
`if IsRootWord(c) return c`, then `strRemovedDerivSuff = removeDerivationSuffixes(c)`
and `if IsRootWord(strRemovedDerivSuff) return strRemovedDerivSuff`. -/
def attempts (rootWords : List Word) : List Word → Word → Flow
  | [], strRemovedDerivSuff => .next strRemovedDerivSuff
  | c :: cs, _ =>
    if IsRootWord rootWords c then .ret c
    else
      let strRemovedDerivSuff := removeDerivationSuffixes rootWords c
      if IsRootWord rootWords strRemovedDerivSuff then .ret strRemovedDerivSuff
      else attempts rootWords cs strRemovedDerivSuff

/-- Candidates of the `di-`, `ke-`, `se-` branch (lines 187-211). -/
def stdCandidates (word : Word) : List Word :=
  [replaceAtStart [str "di", str "ke", str "se"] [] word] ++
  (if startsWith (lits "keber") word then
    [replaceAtStart [str "keber", str "seber"] [] word]
  else [])

/-- Candidates of the branch of line 213 (lines 214-224). -/
def reduplicativeCandidates (word : Word) : List Word := [removeConsonantE word]

/-- Candidates of the `be-` block (lines 227-304). -/
def beCandidates (word : Word) : List Word :=
  if startsWith (lits "be" ++ [nonSpace]) word then
    if startsWith (lits "ber" ++ [vowel, nonSpace]) word then
      [replaceAtStart [str "ber"] [] word, replaceAtStart [str "ber"] (str "r") word]
    else if startsWithPlus (lits "ber" ++ [noneOf "aiueor"]) lowerOrHyphen [nonSpace] word then
      [replaceAtStart [str "ber"] [] word]
    else if startsWithPlus (lits "ber" ++ [noneOf "aiueor"]) lowerOrHyphen
        (lits "er" ++ [vowel, nonSpace]) word then
      [replaceAtStart [str "ber"] [] word]
    else if startsWith (lits "belajar") word then
      [replaceAtStart [str "bel"] [] word]
    else if startsWith (lits "be" ++ [noneOf "aiueolr"] ++ lits "er" ++ [noneOf "aiueo", nonSpace])
        word then
      [replaceAtStart [str "be"] [] word]
    else []
  else []

/-- Candidates of the `te-` block once `terr` is excluded (lines 310-381). -/
def teCandidates (word : Word) : List Word :=
  if startsWith (lits "ter" ++ [vowel, nonSpace]) word then
    [replaceAtStart [str "ter"] [] word, replaceAtStart [str "ter"] (str "r") word]
  else if startsWith (lits "ter" ++ [noneOf "aiueor"] ++ lits "er" ++ [vowel, nonSpace]) word then
    [replaceAtStart [str "ter"] [] word]
  else if startsWith (lits "ter" ++ [noneOf "aiueor", nonSpace]) word then
    [replaceAtStart [str "ter"] [] word]
  else if startsWith (lits "te" ++ [noneOf "aiueor"] ++ lits "er" ++ [nonSpace]) word then
    [replaceAtStart [str "te"] [] word]
  else if startsWith (lits "ter" ++ [noneOf "aiueor"] ++ lits "er" ++ [noneOf "aiueo", nonSpace])
      word then
    [replaceAtStart [str "ter"] [] word]
  else []

/-- The `te-` block (lines 306-382): a word in `terr` is returned at once. -/
def teBlock (rootWords : List Word) (word : Word) (strRemovedDerivSuff : Word) : Flow :=
  if startsWith (lits "te" ++ [nonSpace]) word then
    if startsWith (lits "terr" ++ [nonSpace]) word then .ret word
    else attempts rootWords (teCandidates word) strRemovedDerivSuff
  else .next strRemovedDerivSuff

/-- Candidates of the `me-` block (lines 384-566). -/
def meCandidates (word : Word) : List Word :=
  if startsWith (lits "me" ++ [nonSpace]) word then
    if startsWith (lits "me" ++ [oneOf "lrwyv", vowel]) word then
      [replaceAtStart [str "me"] [] word]
    else if startsWith (lits "mem" ++ [oneOf "bfvp", nonSpace]) word then
      [replaceAtStart [str "mem"] [] word] ++
      (if startsWith (lits "member") word then [replaceAtStart [str "member"] [] word] else [])
    else if startsWith (lits "mem" ++ lits "r" ++ [vowel, nonSpace]) word
        || startsWith (lits "mem" ++ [vowel, nonSpace]) word then
      [replaceAtStart [str "mem"] (str "m") word, replaceAtStart [str "mem"] (str "p") word]
    else if startsWith (lits "men" ++ [oneOf "cdjszt", nonSpace]) word then
      [replaceAtStart [str "men"] [] word]
    else if startsWith (lits "men" ++ [vowel, nonSpace]) word then
      [replaceAtStart [str "men"] (str "n") word, replaceAtStart [str "men"] (str "t") word]
    else if startsWith (lits "meng" ++ [oneOf "ghqk", nonSpace]) word then
      [replaceAtStart [str "meng"] [] word]
    else if startsWith (lits "meng" ++ [vowel, nonSpace]) word then
      [replaceAtStart [str "meng"] [] word, replaceAtStart [str "meng"] (str "k") word,
       replaceAtStart [str "meng"] (str "ng") word, replaceAtStart [str "menge"] [] word]
    else if startsWith (lits "meny" ++ [vowel, nonSpace]) word then
      [replaceAtStart [str "meny"] (str "s") word, replaceAtStart [str "me"] [] word]
    else []
  else []

/-- Candidates of the `pe-` block (lines 572-872). -/
def peCandidates (word : Word) : List Word :=
  if startsWith (lits "pe" ++ [nonSpace]) word then
    if startsWith (lits "pe" ++ [oneOf "wy", nonSpace]) word then
      [replaceAtStart [str "pe"] [] word]
    else if startsWith (lits "per" ++ [vowel, nonSpace]) word then
      [replaceAtStart [str "per"] [] word, replaceAtStart [str "per"] (str "r") word]
    else if startsWith (lits "per" ++ [noneOf "aiueor", nonSpace]) word then
      [replaceAtStart [str "per"] [] word] ++
      (if startsWith (lits "perse") word then [replaceAtStart [str "perse"] [] word] else [])
    else if startsWithPlus (lits "per" ++ [noneOf "aiueor"]) lowerOrHyphen
        (lits "er" ++ [vowel, nonSpace]) word then
      [replaceAtStart [str "per"] [] word]
    else if startsWith (lits "pem" ++ [oneOf "bfv", nonSpace]) word then
      [replaceAtStart [str "pem"] [] word]
    else if startsWith (lits "pem" ++ lits "r" ++ [vowel, nonSpace]) word
        || startsWith (lits "pem" ++ [vowel, nonSpace]) word then
      [replaceAtStart [str "pem"] (str "m") word, replaceAtStart [str "pem"] (str "p") word]
    else if startsWith (lits "pen" ++ [oneOf "cdjzts", nonSpace]) word then
      [replaceAtStart [str "pen"] [] word]
    else if startsWith (lits "pen" ++ [vowel, nonSpace]) word then
      [replaceAtStart [str "pen"] (str "n") word, replaceAtStart [str "pen"] (str "t") word]
    else if startsWith (lits "peng" ++ [oneOf "ghq", nonSpace]) word then
      [replaceAtStart [str "peng"] [] word]
    else if startsWith (lits "peng" ++ [vowel, nonSpace]) word then
      [replaceAtStart [str "peng"] [] word, replaceAtStart [str "peng"] (str "k") word,
       replaceAtStart [str "penge"] [] word]
    else if startsWith (lits "peng" ++ [noneOf "ghq", nonSpace]) word then
      [replaceAtStart [str "peng"] [] word]
    else if startsWith (lits "peny" ++ [vowel, nonSpace]) word then
      [replaceAtStart [str "peny"] (str "s") word, replaceAtStart [str "pe"] [] word]
    else if startsWith (lits "pel" ++ [vowel, nonSpace]) word then
      [replaceAtStart [str "pel"] (str "l") word] ++
      (if startsWith (lits "pelajar") word then [replaceAtStart [str "pel"] [] word] else [])
    else if startsWith (lits "pe" ++ [noneOf "rwylmn"] ++ lits "er" ++ [vowel, nonSpace]) word then
      [replaceAtStart [str "pe"] [] word]
    else if startsWith (lits "pe" ++ [noneOf "rwylmn", nonSpace]) word then
      [replaceAtStart [str "pe"] [] word]
    else if startsWith (lits "pe" ++ [noneOf "aiueor"] ++ lits "er" ++ [noneOf "aiueo", nonSpace])
        word then
      [replaceAtStart [str "pe"] [] word]
    else []
  else []

/-- `removeDerivationPrefixes`.  `base` keeps the input; before the `pe-` block the
variable `word` is overwritten by `strRemovedDerivSuff` when that is not empty
(lines 568-570). -/
def removeDerivationPrefixes (rootWords : List Word) (word : Word) : Word :=
  let base := word
  if startsWith (lits "di" ++ [nonSpace]) word
      || startsWith ([oneOf "ks"] ++ lits "e" ++ [nonSpace]) word then
    match attempts rootWords (stdCandidates word) [] with
    | .ret result => result
    | .next _ => base
  else if matchReduplicative word then
    match attempts rootWords (reduplicativeCandidates word) [] with
    | .ret result => result
    | .next _ => base
  else if startsWith ([oneOf "tmbp"] ++ lits "e" ++ [nonSpace]) word then
    match attempts rootWords (beCandidates word) [] with
    | .ret result => result
    | .next s1 =>
      match teBlock rootWords word s1 with
      | .ret result => result
      | .next s2 =>
        match attempts rootWords (meCandidates word) s2 with
        | .ret result => result
        | .next s3 =>
          let word := if s3.length ≠ 0 then s3 else word
          match attempts rootWords (peCandidates word) s3 with
          | .ret result => result
          | .next _ => base
  else base

/-! ## Orchestration -/

/-- `removingProcess`. -/
def removingProcess (rootWords : List Word) (word : Word) : Word :=
  let p0 := removeDerivationPrefixes rootWords word
  if IsRootWord rootWords p0 then p0
  else
    let p1 := removeInflectionSuffixes word
    let p2 := removeDerivationSuffixes rootWords p1
    if IsRootWord rootWords p2 then p2
    else
      let p3 := removeDerivationPrefixes rootWords p2
      let p4 := removeDerivationPeople rootWords p3
      p4

/-- `Stemm`: the loop appends one result per input word. -/
def Stemm (lc : Char → Char) (rootWords : List Word) (ws : List Word) : List Word :=
  ws.foldl
    (fun result w =>
      let word := ToLower lc w
      if IsRootWord rootWords word then result ++ [w]
      else result ++ [removingProcess rootWords word])
    []

/-! ## Auxiliary notions for the proofs -/

/-- The word carried by a `Flow`, whichever way control leaves the block. -/
def Flow.word : Flow → Word
  | .ret result => result
  | .next strRemovedDerivSuff => strRemovedDerivSuff

/-- The replacement strings used by the rules of `removeDerivationPrefixes`. -/
def restorations : List Word :=
  [[], str "r", str "m", str "p", str "n", str "t", str "k", str "ng", str "s", str "l"]

/-- A property of words kept by every rewriting step of the stemmer: cutting the
end of a word, and replacing a leading literal by a shorter restoration. -/
structure Closed (Q : Word → Prop) : Prop where
  take : ∀ (w : Word) (n : Nat), Q w → Q (w.take n)
  replace : ∀ (alts : List Word) (r w : Word), r ∈ restorations →
    (∀ p ∈ alts, r.length ≤ p.length) → Q w → Q (replaceAtStart alts r w)

/-- Every word of the list has the property. -/
def AllWords (Q : Word → Prop) (l : List Word) : Prop := ∀ c ∈ l, Q c

/-- The body of `removeDerivationSuffixes` with an arbitrary predicate `guard` in the
place of `isDisallowedPrefixSuffixes`; used to state that the guard has no
effect on the result. -/
def removeDerivationSuffixesWith (guard : Word → Bool) (rootWords : List Word)
    (word : Word) : Word :=
  let base1 : Word := if endsWithAny [str "kan"] word then removeEnd [str "kan"] word else []
  if endsWithAny [str "kan"] word && IsRootWord rootWords base1 then base1
  else
    let base2 : Word :=
      if endsWithAny [str "an", str "i"] word then removeEnd [str "an", str "i"] word else base1
    if endsWithAny [str "an", str "i"] word && IsRootWord rootWords base2 then base2
    else if guard base2 then word
    else word

/-- The single stem `Stemm` returns for one word (the body of its loop). -/
def stemOf (lc : Char → Char) (rootWords : List Word) (w : Word) : Word :=
  let word := ToLower lc w
  if IsRootWord rootWords word then w else removingProcess rootWords word

/-! ## Lemmas on the matchers -/

theorem removeEnd_eq (alts : List Word) (w : Word) :
    removeEnd alts w = w ∨ ∃ s ∈ alts, s.isSuffixOf w = true ∧
      removeEnd alts w = w.take (w.length - s.length) := by
  induction alts with
  | nil => exact Or.inl rfl
  | cons s ss ih =>
    unfold removeEnd
    split_ifs with h
    · exact Or.inr ⟨s, List.mem_cons_self _ _, h, rfl⟩
    · rcases ih with h1 | ⟨t, ht, hs, he⟩
      · exact Or.inl h1
      · exact Or.inr ⟨t, List.mem_cons_of_mem _ ht, hs, he⟩

theorem removeEnd_closed {Q : Word → Prop} (hQ : Closed Q) (alts : List Word) (w : Word)
    (hw : Q w) : Q (removeEnd alts w) := by
  rcases removeEnd_eq alts w with h | ⟨s, _, _, h⟩
  · rw [h]; exact hw
  · rw [h]; exact hQ.take _ _ hw

theorem removeEnd_of_not_endsWithAny (alts : List Word) (w : Word)
    (h : endsWithAny alts w = false) : removeEnd alts w = w := by
  induction alts with
  | nil => rfl
  | cons s ss ih =>
    simp only [endsWithAny, List.any_cons, Bool.or_eq_false_iff] at h
    unfold removeEnd
    rw [if_neg (by simp [h.1])]
    exact ih (by simpa [endsWithAny] using h.2)

theorem endsWithAny_iff (alts : List Word) (w : Word) :
    endsWithAny alts w = true ↔ ∃ s ∈ alts, ∃ b, w = b ++ s := by
  unfold endsWithAny
  rw [List.any_eq_true]
  constructor
  · rintro ⟨s, hs, h⟩
    obtain ⟨b, hb⟩ := List.isSuffixOf_iff_suffix.mp h
    exact ⟨s, hs, b, hb.symm⟩
  · rintro ⟨s, hs, b, rfl⟩
    exact ⟨s, hs, by simp⟩

theorem removeEnd_kan (b : Word) : removeEnd [str "kan"] (b ++ str "kan") = b := by
  simp [removeEnd, str]

theorem removeEnd_an (b : Word) : removeEnd [str "an", str "i"] (b ++ str "an") = b := by
  simp [removeEnd, str]

theorem removeEnd_i (b : Word) : removeEnd [str "an", str "i"] (b ++ str "i") = b := by
  have h : (str "an").isSuffixOf (b ++ str "i") = false := by
    simp [List.isSuffixOf, str, List.isPrefixOf, -List.isSuffixOf_iff_suffix,
      -List.isPrefixOf_iff_prefix]
  rw [removeEnd, if_neg (by rw [h]; simp)]
  simp [removeEnd, str]

/-! ## Lemmas on the suffix removers -/

theorem removeInflectionSuffixes_closed {Q : Word → Prop} (hQ : Closed Q) (w : Word)
    (hw : Q w) : Q (removeInflectionSuffixes w) := by
  unfold removeInflectionSuffixes
  dsimp only
  split_ifs
  · exact removeEnd_closed hQ _ _ (removeEnd_closed hQ _ _ hw)
  · exact removeEnd_closed hQ _ _ hw
  · exact hw

/-- The three ways `removeDerivationSuffixes` ends: a root after `-kan`, a root
after `-an` or `-i`, or the word itself. -/
theorem removeDerivationSuffixes_cases (rw : List Word) (w : Word) :
    (removeDerivationSuffixes rw w = removeEnd [str "kan"] w ∧
        endsWithAny [str "kan"] w = true ∧ IsRootWord rw (removeEnd [str "kan"] w) = true) ∨
    (removeDerivationSuffixes rw w = removeEnd [str "an", str "i"] w ∧
        endsWithAny [str "an", str "i"] w = true ∧
        IsRootWord rw (removeEnd [str "an", str "i"] w) = true ∧
        (endsWithAny [str "kan"] w = true → IsRootWord rw (removeEnd [str "kan"] w) = false)) ∨
    (removeDerivationSuffixes rw w = w ∧
        (endsWithAny [str "kan"] w = true → IsRootWord rw (removeEnd [str "kan"] w) = false) ∧
        (endsWithAny [str "an", str "i"] w = true →
          IsRootWord rw (removeEnd [str "an", str "i"] w) = false)) := by
  unfold removeDerivationSuffixes
  dsimp only
  generalize endsWithAny [str "kan"] w = e1
  generalize removeEnd [str "kan"] w = b1
  generalize endsWithAny [str "an", str "i"] w = e2
  generalize removeEnd [str "an", str "i"] w = b2
  cases e1 <;> cases e2 <;> cases h1 : IsRootWord rw b1 <;> cases h2 : IsRootWord rw b2 <;>
    simp [h1, h2]

theorem removeDerivationSuffixes_root_or_self (rw : List Word) (w : Word) :
    removeDerivationSuffixes rw w = w ∨
      IsRootWord rw (removeDerivationSuffixes rw w) = true := by
  rcases removeDerivationSuffixes_cases rw w with ⟨h, _, hr⟩ | ⟨h, _, hr, _⟩ | ⟨h, _⟩
  · right; rw [h]; exact hr
  · right; rw [h]; exact hr
  · left; exact h

theorem removeDerivationSuffixes_closed {Q : Word → Prop} (hQ : Closed Q) (rw : List Word)
    (w : Word) (hw : Q w) : Q (removeDerivationSuffixes rw w) := by
  rcases removeDerivationSuffixes_cases rw w with ⟨h, _⟩ | ⟨h, _⟩ | ⟨h, _⟩
  · rw [h]; exact removeEnd_closed hQ _ _ hw
  · rw [h]; exact removeEnd_closed hQ _ _ hw
  · rw [h]; exact hw

/-- The three ways `removeDerivationPeople` ends. -/
theorem removeDerivationPeople_cases (rw : List Word) (w : Word) :
    (removeDerivationPeople rw w = removeEnd [str "man", str "wan"] w ∧
        endsWithAny [str "man", str "wan"] w = true ∧
        IsRootWord rw (removeEnd [str "man", str "wan"] w) = true) ∨
    (removeDerivationPeople rw w = removeEnd [str "wati"] w ∧
        endsWithAny [str "wati"] w = true ∧ IsRootWord rw (removeEnd [str "wati"] w) = true) ∨
    (removeDerivationPeople rw w = w ∧
        (endsWithAny [str "man", str "wan"] w = true →
          IsRootWord rw (removeEnd [str "man", str "wan"] w) = false) ∧
        (endsWithAny [str "wati"] w = true →
          IsRootWord rw (removeEnd [str "wati"] w) = false)) := by
  unfold removeDerivationPeople
  dsimp only
  generalize endsWithAny [str "man", str "wan"] w = e1
  generalize removeEnd [str "man", str "wan"] w = b1
  generalize endsWithAny [str "wati"] w = e2
  generalize removeEnd [str "wati"] w = b2
  cases e1 <;> cases e2 <;> cases h1 : IsRootWord rw b1 <;> cases h2 : IsRootWord rw b2 <;>
    simp [h1, h2]

theorem removeDerivationPeople_root_or_self (rw : List Word) (w : Word) :
    removeDerivationPeople rw w = w ∨
      IsRootWord rw (removeDerivationPeople rw w) = true := by
  rcases removeDerivationPeople_cases rw w with ⟨h, _, hr⟩ | ⟨h, _, hr⟩ | ⟨h, _⟩
  · right; rw [h]; exact hr
  · right; rw [h]; exact hr
  · left; exact h

theorem removeDerivationPeople_closed {Q : Word → Prop} (hQ : Closed Q) (rw : List Word)
    (w : Word) (hw : Q w) : Q (removeDerivationPeople rw w) := by
  rcases removeDerivationPeople_cases rw w with ⟨h, _⟩ | ⟨h, _⟩ | ⟨h, _⟩
  · rw [h]; exact removeEnd_closed hQ _ _ hw
  · rw [h]; exact removeEnd_closed hQ _ _ hw
  · rw [h]; exact hw

/-! ## Lemmas on the prefix remover -/

theorem attempts_ret_root (rw : List Word) (cs : List Word) (s r : Word)
    (h : attempts rw cs s = .ret r) : IsRootWord rw r = true := by
  induction cs generalizing s with
  | nil => simp [attempts] at h
  | cons c cs ih =>
    unfold attempts at h
    dsimp only at h
    split_ifs at h with h1 h2
    · cases h; exact h1
    · cases h; exact h2
    · exact ih _ h

theorem attempts_closed {Q : Word → Prop} (hQ : Closed Q) (rw : List Word) (cs : List Word)
    (s : Word) (hc : AllWords Q cs) (hs : Q s) : Q (attempts rw cs s).word := by
  induction cs generalizing s with
  | nil => simpa [attempts, Flow.word] using hs
  | cons c cs ih =>
    have hQc : Q c := hc c (List.mem_cons_self _ _)
    unfold attempts
    dsimp only
    split_ifs with h1 h2
    · exact hQc
    · exact removeDerivationSuffixes_closed hQ rw c hQc
    · exact ih _ (fun x hx => hc x (List.mem_cons_of_mem _ hx))
        (removeDerivationSuffixes_closed hQ rw c hQc)

theorem Closed.rep {Q : Word → Prop} (hQ : Closed Q) {w : Word} (hw : Q w) (alts : List Word)
    (r : Word) (hr : decide (r ∈ restorations) = true)
    (hp : alts.all (fun p => decide (r.length ≤ p.length)) = true) :
    Q (replaceAtStart alts r w) := by
  refine hQ.replace alts r w (by simpa using hr) ?_ hw
  intro p hp'
  have := List.all_eq_true.mp hp p hp'
  simpa using this

theorem AllWords.ite {Q : Word → Prop} {b : Prop} [Decidable b] {l1 l2 : List Word}
    (h1 : AllWords Q l1) (h2 : AllWords Q l2) : AllWords Q (if b then l1 else l2) := by
  split_ifs
  · exact h1
  · exact h2

theorem AllWords.cons {Q : Word → Prop} {a : Word} {l : List Word}
    (h1 : Q a) (h2 : AllWords Q l) : AllWords Q (a :: l) := by
  intro c hc
  rcases List.mem_cons.mp hc with rfl | h
  · exact h1
  · exact h2 c h

theorem AllWords.append {Q : Word → Prop} {l1 l2 : List Word}
    (h1 : AllWords Q l1) (h2 : AllWords Q l2) : AllWords Q (l1 ++ l2) := by
  intro c hc
  rcases List.mem_append.mp hc with h | h
  · exact h1 c h
  · exact h2 c h

theorem AllWords.nil {Q : Word → Prop} : AllWords Q [] := by
  intro c hc
  cases hc

theorem stdCandidates_closed {Q : Word → Prop} (hQ : Closed Q) (w : Word) (hw : Q w) :
    AllWords Q (stdCandidates w) := by
  unfold stdCandidates
  repeat first
    | exact hQ.rep hw _ _ (by decide) (by decide)
    | exact AllWords.nil
    | apply AllWords.ite
    | apply AllWords.append
    | apply AllWords.cons

theorem reduplicativeCandidates_closed {Q : Word → Prop} (hQ : Closed Q) (w : Word)
    (hw : Q w) : AllWords Q (reduplicativeCandidates w) := by
  unfold reduplicativeCandidates
  refine AllWords.cons ?_ AllWords.nil
  unfold removeConsonantE
  split
  · rename_i c rest
    split_ifs
    · have h := hQ.replace [[c, 'e']] [] (c :: 'e' :: rest) (by decide) (by simp) hw
      simpa [replaceAtStart] using h
    · exact hw
  · exact hw

theorem beCandidates_closed {Q : Word → Prop} (hQ : Closed Q) (w : Word) (hw : Q w) :
    AllWords Q (beCandidates w) := by
  unfold beCandidates
  repeat first
    | exact hQ.rep hw _ _ (by decide) (by decide)
    | exact AllWords.nil
    | apply AllWords.ite
    | apply AllWords.append
    | apply AllWords.cons

theorem teCandidates_closed {Q : Word → Prop} (hQ : Closed Q) (w : Word) (hw : Q w) :
    AllWords Q (teCandidates w) := by
  unfold teCandidates
  repeat first
    | exact hQ.rep hw _ _ (by decide) (by decide)
    | exact AllWords.nil
    | apply AllWords.ite
    | apply AllWords.append
    | apply AllWords.cons

theorem meCandidates_closed {Q : Word → Prop} (hQ : Closed Q) (w : Word) (hw : Q w) :
    AllWords Q (meCandidates w) := by
  unfold meCandidates
  repeat first
    | exact hQ.rep hw _ _ (by decide) (by decide)
    | exact AllWords.nil
    | apply AllWords.ite
    | apply AllWords.append
    | apply AllWords.cons

theorem peCandidates_closed {Q : Word → Prop} (hQ : Closed Q) (w : Word) (hw : Q w) :
    AllWords Q (peCandidates w) := by
  unfold peCandidates
  repeat first
    | exact hQ.rep hw _ _ (by decide) (by decide)
    | exact AllWords.nil
    | apply AllWords.ite
    | apply AllWords.append
    | apply AllWords.cons

theorem teBlock_closed {Q : Word → Prop} (hQ : Closed Q) (rw : List Word) (w s : Word)
    (hw : Q w) (hs : Q s) : Q (teBlock rw w s).word := by
  unfold teBlock
  split_ifs
  · exact hw
  · exact attempts_closed hQ rw _ s (teCandidates_closed hQ w hw) hs
  · exact hs

theorem teBlock_ret (rw : List Word) (w s r : Word) (h : teBlock rw w s = .ret r) :
    r = w ∨ IsRootWord rw r = true := by
  unfold teBlock at h
  split_ifs at h
  · cases h; exact Or.inl rfl
  · exact Or.inr (attempts_ret_root rw _ _ _ h)

/-- Every property kept by the rewriting steps is kept by `removeDerivationPrefixes`. -/
theorem removeDerivationPrefixes_closed {Q : Word → Prop} (hQ : Closed Q) (rw : List Word)
    (w : Word) (hw : Q w) : Q (removeDerivationPrefixes rw w) := by
  have hnil : Q [] := by simpa using hQ.take w 0 hw
  unfold removeDerivationPrefixes
  dsimp only
  split_ifs with h1 h2 h3
  · have hb := attempts_closed hQ rw _ [] (stdCandidates_closed hQ w hw) hnil
    generalize attempts rw (stdCandidates w) [] = f at hb ⊢
    cases f with
    | ret r => exact hb
    | next s => exact hw
  · have hb := attempts_closed hQ rw _ [] (reduplicativeCandidates_closed hQ w hw) hnil
    generalize attempts rw (reduplicativeCandidates w) [] = f at hb ⊢
    cases f with
    | ret r => exact hb
    | next s => exact hw
  · have hb := attempts_closed hQ rw _ [] (beCandidates_closed hQ w hw) hnil
    generalize attempts rw (beCandidates w) [] = f1 at hb ⊢
    cases f1 with
    | ret r => exact hb
    | next s1 =>
      dsimp only
      have hs1 : Q s1 := hb
      have ht := teBlock_closed hQ rw w s1 hw hs1
      generalize teBlock rw w s1 = f2 at ht ⊢
      cases f2 with
      | ret r => exact ht
      | next s2 =>
        dsimp only
        have hs2 : Q s2 := ht
        have hm := attempts_closed hQ rw _ s2 (meCandidates_closed hQ w hw) hs2
        generalize attempts rw (meCandidates w) s2 = f3 at hm ⊢
        cases f3 with
        | ret r => exact hm
        | next s3 =>
          dsimp only
          have hs3 : Q s3 := hm
          have hw2 : Q (if s3.length ≠ 0 then s3 else w) := by
            split_ifs
            · exact hs3
            · exact hw
          have hp := attempts_closed hQ rw _ s3 (peCandidates_closed hQ _ hw2) hs3
          generalize attempts rw (peCandidates (if s3.length ≠ 0 then s3 else w)) s3 = f4
            at hp ⊢
          cases f4 with
          | ret r => exact hp
          | next s4 => exact hw
  · exact hw

/-- `removeDerivationPrefixes` returns its input or a word of the dictionary. -/
theorem removeDerivationPrefixes_root_or_self (rw : List Word) (w : Word) :
    removeDerivationPrefixes rw w = w ∨
      IsRootWord rw (removeDerivationPrefixes rw w) = true := by
  unfold removeDerivationPrefixes
  dsimp only
  split_ifs with h1 h2 h3
  · cases hf : attempts rw (stdCandidates w) [] with
    | ret r => exact Or.inr (attempts_ret_root rw _ _ _ hf)
    | next s => exact Or.inl rfl
  · cases hf : attempts rw (reduplicativeCandidates w) [] with
    | ret r => exact Or.inr (attempts_ret_root rw _ _ _ hf)
    | next s => exact Or.inl rfl
  · cases hf1 : attempts rw (beCandidates w) [] with
    | ret r => exact Or.inr (attempts_ret_root rw _ _ _ hf1)
    | next s1 =>
      dsimp only
      cases hf2 : teBlock rw w s1 with
      | ret r => exact (teBlock_ret rw _ _ _ hf2)
      | next s2 =>
        dsimp only
        cases hf3 : attempts rw (meCandidates w) s2 with
        | ret r => exact Or.inr (attempts_ret_root rw _ _ _ hf3)
        | next s3 =>
          dsimp only
          cases hf4 : attempts rw (peCandidates (if s3.length ≠ 0 then s3 else w)) s3 with
          | ret r => exact Or.inr (attempts_ret_root rw _ _ _ hf4)
          | next s4 => exact Or.inl rfl
  · exact Or.inl rfl

theorem removingProcess_closed {Q : Word → Prop} (hQ : Closed Q) (rw : List Word) (w : Word)
    (hw : Q w) : Q (removingProcess rw w) := by
  unfold removingProcess
  dsimp only
  split_ifs
  · exact removeDerivationPrefixes_closed hQ rw w hw
  · exact removeDerivationSuffixes_closed hQ rw _ (removeInflectionSuffixes_closed hQ w hw)
  · exact removeDerivationPeople_closed hQ rw _ (removeDerivationPrefixes_closed hQ rw _
      (removeDerivationSuffixes_closed hQ rw _ (removeInflectionSuffixes_closed hQ w hw)))

/-! ## Two properties kept by every rewriting step -/

theorem replaceAtStart_eq (alts : List Word) (r w : Word) :
    replaceAtStart alts r w = w ∨
      ∃ p ∈ alts, p.isPrefixOf w = true ∧ replaceAtStart alts r w = r ++ w.drop p.length := by
  induction alts with
  | nil => exact Or.inl rfl
  | cons p ps ih =>
    unfold replaceAtStart
    split_ifs with h
    · exact Or.inr ⟨p, List.mem_cons_self _ _, h, rfl⟩
    · rcases ih with h1 | ⟨q, hq, hpre, he⟩
      · exact Or.inl h1
      · exact Or.inr ⟨q, List.mem_cons_of_mem _ hq, hpre, he⟩

/-- Being no longer than a bound is kept by every rewriting step. -/
theorem closed_length (n : Nat) : Closed (fun w => w.length ≤ n) where
  take := by
    intro w k hw
    exact le_trans (List.length_take_le' k w) hw
  replace := by
    intro alts r w _ hp hw
    rcases replaceAtStart_eq alts r w with h | ⟨p, hmem, hpre, h⟩
    · rw [h]; exact hw
    · rw [h]
      have h1 : p.length ≤ w.length := (List.isPrefixOf_iff_prefix.mp hpre).length_le
      have h2 := hp p hmem
      simp only [List.length_append, List.length_drop]
      omega

/-- Being fixed by the lower-casing map is kept by every rewriting step, provided
the map fixes the letters of the restorations. -/
theorem closed_lower (lc : Char → Char) (hfix : ∀ c ∈ str "rmpntkgsl", lc c = c) :
    Closed (fun w => ∀ c ∈ w, lc c = c) where
  take := by
    intro w k hw c hc
    exact hw c (List.mem_of_mem_take hc)
  replace := by
    intro alts r w hr _ hw
    have hrl : ∀ c ∈ r, lc c = c := by
      intro c hc
      apply hfix
      simp only [restorations, str, List.mem_cons, List.mem_singleton, List.not_mem_nil,
        or_false] at hr
      rcases hr with h | h | h | h | h | h | h | h | h | h <;> subst h <;>
        revert c <;> decide
    rcases replaceAtStart_eq alts r w with h | ⟨p, _, _, h⟩
    · rw [h]; exact hw
    · rw [h]
      intro c hc
      rcases List.mem_append.mp hc with h1 | h1
      · exact hrl c h1
      · exact hw c (List.mem_of_mem_drop h1)

theorem toLower_eq_self_iff (lc : Char → Char) (w : Word) :
    ToLower lc w = w ↔ ∀ c ∈ w, lc c = c := by
  unfold ToLower
  induction w with
  | nil => simp
  | cons a l ih => simp [ih]

/-! ## Lemmas on `Stemm` -/

theorem Stemm_eq_map (lc : Char → Char) (rw : List Word) (ws : List Word) :
    Stemm lc rw ws = ws.map (stemOf lc rw) := by
  have key : ∀ (acc : List Word),
      ws.foldl (fun result w =>
        let word := ToLower lc w
        if IsRootWord rw word then result ++ [w]
        else result ++ [removingProcess rw word]) acc = acc ++ ws.map (stemOf lc rw) := by
    induction ws with
    | nil => intro acc; simp
    | cons w ws ih =>
      intro acc
      rw [List.foldl_cons, ih]
      unfold stemOf
      dsimp only
      split_ifs with h <;> simp [h]
  simpa [Stemm] using key []

theorem Stemm_single (lc : Char → Char) (rw : List Word) (w : Word) :
    Stemm lc rw [w] = [stemOf lc rw w] := by
  rw [Stemm_eq_map]; rfl

/-- When `removingProcess` does not end on a root, no rule of the derivation
removers applied: the result is the word without its inflectional suffixes. -/
theorem removingProcess_not_root (rw : List Word) (w : Word)
    (h : IsRootWord rw (removingProcess rw w) = false) :
    removingProcess rw w = removeInflectionSuffixes w ∧
    IsRootWord rw (removeDerivationPrefixes rw w) = false ∧
    removeDerivationSuffixes rw (removeInflectionSuffixes w) = removeInflectionSuffixes w ∧
    removeDerivationPrefixes rw (removeInflectionSuffixes w) = removeInflectionSuffixes w ∧
    removeDerivationPeople rw (removeInflectionSuffixes w) = removeInflectionSuffixes w := by
  unfold removingProcess at h ⊢
  dsimp only at h ⊢
  by_cases h0 : IsRootWord rw (removeDerivationPrefixes rw w) = true
  · rw [if_pos h0] at h
    rw [h0] at h; cases h
  · rw [if_neg h0] at h ⊢
    by_cases h2 : IsRootWord rw (removeDerivationSuffixes rw (removeInflectionSuffixes w)) = true
    · rw [if_pos h2] at h
      rw [h2] at h; cases h
    · rw [if_neg h2] at h ⊢
      have e2 : removeDerivationSuffixes rw (removeInflectionSuffixes w)
          = removeInflectionSuffixes w := by
        rcases removeDerivationSuffixes_root_or_self rw (removeInflectionSuffixes w) with e | e
        · exact e
        · exact absurd e h2
      rw [e2] at h ⊢
      have e4 := removeDerivationPeople_root_or_self rw
        (removeDerivationPrefixes rw (removeInflectionSuffixes w))
      rcases e4 with e4 | e4
      · rw [e4] at h ⊢
        rcases removeDerivationPrefixes_root_or_self rw (removeInflectionSuffixes w) with e3 | e3
        · refine ⟨e3, by simpa using h0, rfl, e3, ?_⟩
          rw [e3] at e4; exact e4
        · rw [e3] at h; cases h
      · rw [e4] at h; cases h

theorem removeInflectionSuffixes_of_not_endsWithAny (w : Word)
    (h : endsWithAny inflectionSuffixes w = false) : removeInflectionSuffixes w = w := by
  unfold removeInflectionSuffixes
  rw [if_neg (by simp [h])]

/-- The ASCII lower-casing of Lean is idempotent. -/
theorem toLower_toLower (c : Char) : Char.toLower (Char.toLower c) = Char.toLower c := by
  by_cases h : 65 ≤ c.toNat ∧ c.toNat ≤ 90
  · have hc : c = Char.ofNat c.toNat := (Char.ofNat_toNat c).symm
    obtain ⟨h1, h2⟩ := h
    generalize c.toNat = n at hc h1 h2
    subst hc
    interval_cases n <;> rfl
  · have hfix : Char.toLower c = c := by
      unfold Char.toLower
      simp only [ge_iff_le]
      rw [if_neg h]
    rw [hfix, hfix]

/-- The ASCII lower-casing of Lean fixes the letters `a`-`z`. -/
theorem toLower_of_isLower (c : Char) (h : c.isLower = true) : Char.toLower c = c := by
  by_cases hr : 65 ≤ c.toNat ∧ c.toNat ≤ 90
  · have hc : c = Char.ofNat c.toNat := (Char.ofNat_toNat c).symm
    obtain ⟨h1, h2⟩ := hr
    generalize c.toNat = n at hc h1 h2
    subst hc
    revert h
    interval_cases n <;> decide
  · unfold Char.toLower
    simp only [ge_iff_le]
    rw [if_neg hr]

/-- The stem of a word whose lower-cased form is not a root is fixed by
lower-casing, for a lower-casing map that is idempotent and fixes the letters of
the restorations. -/
theorem removingProcess_lower (lc : Char → Char) (hidem : ∀ c, lc (lc c) = lc c)
    (hfix : ∀ c ∈ str "rmpntkgsl", lc c = c) (rw : List Word) (w : Word) :
    ToLower lc (removingProcess rw (ToLower lc w)) = removingProcess rw (ToLower lc w) := by
  rw [toLower_eq_self_iff]
  apply removingProcess_closed (closed_lower lc hfix)
  intro c hc
  simp only [ToLower, List.mem_map] at hc
  obtain ⟨a, _, rfl⟩ := hc
  exact hidem a

/-! ## Evaluation lemmas -/

theorem attempts_hit (rw : List Word) (c : Word) (cs : List Word) (s : Word)
    (h : IsRootWord rw c = true) : attempts rw (c :: cs) s = .ret c := by
  rw [attempts, if_pos h]

theorem attempts_hit_suffix (rw : List Word) (c : Word) (cs : List Word) (s : Word)
    (h1 : IsRootWord rw c = false) (h2 : IsRootWord rw (removeDerivationSuffixes rw c) = true) :
    attempts rw (c :: cs) s = .ret (removeDerivationSuffixes rw c) := by
  rw [attempts, if_neg (by simp [h1])]
  dsimp only
  rw [if_pos h2]

theorem attempts_miss (rw : List Word) (c : Word) (cs : List Word) (s : Word)
    (h1 : IsRootWord rw c = false) (h2 : IsRootWord rw (removeDerivationSuffixes rw c) = false) :
    attempts rw (c :: cs) s = attempts rw cs (removeDerivationSuffixes rw c) := by
  rw [attempts, if_neg (by simp [h1])]
  dsimp only
  rw [if_neg (by simp [h2])]

theorem removeDerivationPrefixes_std (rw : List Word) (w : Word)
    (h : (startsWith (lits "di" ++ [nonSpace]) w
      || startsWith ([oneOf "ks"] ++ lits "e" ++ [nonSpace]) w) = true) :
    removeDerivationPrefixes rw w =
      match attempts rw (stdCandidates w) [] with
      | .ret result => result
      | .next _ => w := by
  unfold removeDerivationPrefixes
  dsimp only
  rw [if_pos h]

theorem removeDerivationSuffixes_eq_self (rw : List Word) (w : Word)
    (h1 : endsWithAny [str "kan"] w = true → IsRootWord rw (removeEnd [str "kan"] w) = false)
    (h2 : endsWithAny [str "an", str "i"] w = true →
      IsRootWord rw (removeEnd [str "an", str "i"] w) = false) :
    removeDerivationSuffixes rw w = w := by
  rcases removeDerivationSuffixes_cases rw w with ⟨_, he, hr⟩ | ⟨_, he, hr, _⟩ | ⟨h, _⟩
  · rw [h1 he] at hr; cases hr
  · rw [h2 he] at hr; cases hr
  · exact h

theorem removeDerivationSuffixes_eq_an (rw : List Word) (w : Word)
    (h1 : endsWithAny [str "kan"] w = true → IsRootWord rw (removeEnd [str "kan"] w) = false)
    (h2 : endsWithAny [str "an", str "i"] w = true)
    (h3 : IsRootWord rw (removeEnd [str "an", str "i"] w) = true) :
    removeDerivationSuffixes rw w = removeEnd [str "an", str "i"] w := by
  rcases removeDerivationSuffixes_cases rw w with ⟨_, he, hr⟩ | ⟨h, _⟩ | ⟨_, _, hn⟩
  · rw [h1 he] at hr; cases hr
  · exact h
  · rw [hn h2] at h3; cases h3

theorem removeDerivationSuffixes_eq_kan (rw : List Word) (w : Word)
    (h1 : endsWithAny [str "kan"] w = true)
    (h2 : IsRootWord rw (removeEnd [str "kan"] w) = true) :
    removeDerivationSuffixes rw w = removeEnd [str "kan"] w := by
  rcases removeDerivationSuffixes_cases rw w with ⟨h, _⟩ | ⟨_, _, _, hn⟩ | ⟨_, hn, _⟩
  · exact h
  · rw [hn h1] at h2; cases h2
  · rw [hn h1] at h2; cases h2

theorem removeDerivationPeople_eq_self (rw : List Word) (w : Word)
    (h1 : endsWithAny [str "man", str "wan"] w = true →
      IsRootWord rw (removeEnd [str "man", str "wan"] w) = false)
    (h2 : endsWithAny [str "wati"] w = true →
      IsRootWord rw (removeEnd [str "wati"] w) = false) :
    removeDerivationPeople rw w = w := by
  rcases removeDerivationPeople_cases rw w with ⟨_, he, hr⟩ | ⟨_, he, hr⟩ | ⟨h, _⟩
  · rw [h1 he] at hr; cases hr
  · rw [h2 he] at hr; cases hr
  · exact h

theorem nonSpace_of_isLower (c : Char) (h : c.isLower = true) : nonSpace c = true := by
  unfold nonSpace noneOf
  by_contra hc
  simp only [Bool.not_eq_true', Bool.not_eq_false, List.contains_iff_exists_mem_beq] at hc
  obtain ⟨a, ha, hb⟩ := hc
  have hca : c = a := by simpa using hb
  subst hca
  revert h
  revert c
  decide

/-! ## Idempotence on roots -/

/-- C1. Idempotence on roots: when every word of the dictionary is lower-case
(fixed by lower-casing), `Stemm` applied to a word of the dictionary returns
exactly that word. -/
theorem stemm_root_unchanged (lc : Char → Char) (rootWords : List Word)
    (hdict : ∀ x ∈ rootWords, ToLower lc x = x) (w : Word) (hw : w ∈ rootWords) :
    Stemm lc rootWords [w] = [w] := by
  rw [Stemm_single]
  unfold stemOf
  simp [hdict w hw, IsRootWord, hw]

/-- Instance of `stemm_root_unchanged`: the dictionary `["buku", "cinta"]` and the word "cinta". -/
theorem stemm_root_unchanged_witness :
    (∀ x ∈ [str "buku", str "cinta"], ToLower Char.toLower x = x) ∧
    str "cinta" ∈ [str "buku", str "cinta"] ∧
    Stemm Char.toLower [str "buku", str "cinta"] [str "cinta"] = [str "cinta"] :=
  ⟨by decide, by decide,
    stemm_root_unchanged Char.toLower [str "buku", str "cinta"] (by decide) (str "cinta")
      (by decide)⟩

/-! ## No lengthening -/

/-- C2. No-lengthening: the stem `Stemm` returns for a word has at most as many
characters as the word, whatever the dictionary and whichever rules apply
(suffix removal, every prefix restoration, the second pass on the folded word,
people-suffix removal). -/
theorem stemm_no_lengthening (lc : Char → Char) (rootWords : List Word) (w : Word) :
    ∃ s, Stemm lc rootWords [w] = [s] ∧ s.length ≤ w.length := by
  refine ⟨stemOf lc rootWords w, Stemm_single lc rootWords w, ?_⟩
  unfold stemOf
  dsimp only
  split_ifs
  · exact le_refl _
  · exact removingProcess_closed (closed_length w.length) rootWords (ToLower lc w)
      (by simp [ToLower])

/-! ## Batches -/

/-- C6. Batch order preservation: `Stemm` applied to `n` words returns `n` stems,
and the stem at each position is the one `Stemm` returns for the word at that
position taken alone (the empty batch gives the empty result). -/
theorem stemm_batch (lc : Char → Char) (rootWords : List Word) (ws : List Word) :
    (Stemm lc rootWords ws).length = ws.length ∧
    ∀ i : Fin ws.length,
      (Stemm lc rootWords ws)[i.val]? = (Stemm lc rootWords [ws.get i])[0]? := by
  constructor
  · rw [Stemm_eq_map, List.length_map]
  · intro i
    rw [Stemm_single, Stemm_eq_map]
    simp

/-! ## The empty word -/

/-- C8. Empty input: for every dictionary, with or without the empty word in it,
`Stemm` maps the empty word to the empty word, and so does each of the four
removers. -/
theorem stemm_empty (lc : Char → Char) (rootWords : List Word) :
    Stemm lc rootWords [[]] = [[]] ∧
    removeInflectionSuffixes [] = [] ∧
    removeDerivationSuffixes rootWords [] = [] ∧
    removeDerivationPeople rootWords [] = [] ∧
    removeDerivationPrefixes rootWords [] = [] := by
  have hQ := closed_length 0
  have h0 : ([] : Word).length ≤ 0 := le_refl _
  refine ⟨?_, ?_, ?_, ?_, ?_⟩
  · rw [Stemm_single]
    unfold stemOf
    dsimp only
    split_ifs
    · rfl
    · have := removingProcess_closed hQ rootWords (ToLower lc []) (by simp [ToLower])
      simpa [ToLower] using this
  · decide
  · simpa using removeDerivationSuffixes_closed hQ rootWords [] h0
  · simpa using removeDerivationPeople_closed hQ rootWords [] h0
  · simpa using removeDerivationPrefixes_closed hQ rootWords [] h0

/-! ## Words for which no rule finds a root -/

/-- C4, as stated, fails: with the dictionary `["rumah"]` the stem of the lower-case
word "gedungnya" is "gedung", which is not a root and is not the word itself. -/
theorem stemNotFound_counterexample :
    ToLower Char.toLower (str "gedungnya") = str "gedungnya" ∧
    Stemm Char.toLower [str "rumah"] [str "gedungnya"] = [str "gedung"] ∧
    IsRootWord [str "rumah"] (str "gedung") = false ∧
    str "gedung" ≠ str "gedungnya" := by
  decide

/-- C4, amended. For a lower-case word `w`, a stem that is not a root word equals
`removeInflectionSuffixes w`: the word without its inflectional suffixes, hence
`w` itself when `w` ends with none of them. -/
theorem stemNotFound_amended (lc : Char → Char) (rootWords : List Word) (w s : Word)
    (hw : ToLower lc w = w) (hs : Stemm lc rootWords [w] = [s])
    (hnr : IsRootWord rootWords s = false) :
    s = removeInflectionSuffixes w ∧
    (endsWithAny inflectionSuffixes w = false → s = w) := by
  rw [Stemm_single] at hs
  have hs' : stemOf lc rootWords w = s := by simpa using hs
  have key : s = removeInflectionSuffixes w := by
    unfold stemOf at hs'
    dsimp only at hs'
    rw [hw] at hs'
    split_ifs at hs' with h
    · rw [hs', hnr] at h; cases h
    · rw [← hs'] at hnr ⊢
      exact (removingProcess_not_root rootWords w hnr).1
  exact ⟨key, fun h => by rw [key, removeInflectionSuffixes_of_not_endsWithAny w h]⟩

/-- Instance of `stemNotFound_amended`: the dictionary `["rumah"]` and the word "gedungnya". -/
theorem stemNotFound_amended_witness :
    ToLower Char.toLower (str "gedungnya") = str "gedungnya" ∧
    Stemm Char.toLower [str "rumah"] [str "gedungnya"] = [str "gedung"] ∧
    IsRootWord [str "rumah"] (str "gedung") = false ∧
    (str "gedung" = removeInflectionSuffixes (str "gedungnya") ∧
      (endsWithAny inflectionSuffixes (str "gedungnya") = false →
        str "gedung" = str "gedungnya")) :=
  ⟨by decide, by decide, by decide,
    stemNotFound_amended Char.toLower [str "rumah"] (str "gedungnya") (str "gedung")
      (by decide) (by decide) (by decide)⟩

/-! ## Stemming a stem again -/

/-- C3, as stated, fails: with the dictionary `["cinta", "buku"]` the stem of
"temunyalah" is "temu", and the stem of "temu" is "te". -/
theorem stemm_fixpoint_counterexample :
    Stemm Char.toLower [str "cinta", str "buku"] [str "temunyalah"] = [str "temu"] ∧
    Stemm Char.toLower [str "cinta", str "buku"] [str "temu"] = [str "te"] ∧
    Stemm Char.toLower [str "cinta", str "buku"]
        (Stemm Char.toLower [str "cinta", str "buku"] [str "temunyalah"])
      ≠ Stemm Char.toLower [str "cinta", str "buku"] [str "temunyalah"] := by
  decide

/-- C3, amended. Let `s` be the stem of `w`. Stemming `s` again returns `s` exactly
when `s`, lower-cased, is a root word or `s` ends with no inflectional suffix
(`removeInflectionSuffixes` leaves it unchanged); a stem that is not a root and
still carries such a suffix is shortened again. The lower-casing map is assumed
idempotent and to fix the letters of the restorations. -/
theorem stemm_fixpoint_amended (lc : Char → Char) (hidem : ∀ c, lc (lc c) = lc c)
    (hfix : ∀ c ∈ str "rmpntkgsl", lc c = c) (rootWords : List Word) (w s : Word)
    (hs : Stemm lc rootWords [w] = [s]) :
    Stemm lc rootWords [s] = [s] ↔
      (IsRootWord rootWords (ToLower lc s) = true ∨ removeInflectionSuffixes s = s) := by
  rw [Stemm_single] at hs ⊢
  have hs' : stemOf lc rootWords w = s := by simpa using hs
  by_cases hroot : IsRootWord rootWords (ToLower lc s) = true
  · simp [stemOf, hroot]
  · -- the stem comes out of `removingProcess`, so it is lower-case
    have hlow : ToLower lc s = s := by
      unfold stemOf at hs'
      dsimp only at hs'
      split_ifs at hs' with h
      · rw [hs'] at h; exact absurd h hroot
      · rw [← hs']; exact removingProcess_lower lc hidem hfix rootWords w
    have hnr : IsRootWord rootWords s = false := by
      rw [hlow] at hroot; simpa using hroot
    have hstem : stemOf lc rootWords s = removingProcess rootWords s := by
      unfold stemOf
      dsimp only
      rw [hlow, if_neg (by simp [hnr])]
    have hsrc : removingProcess rootWords (ToLower lc w) = s := by
      unfold stemOf at hs'
      dsimp only at hs'
      split_ifs at hs' with h
      · rw [hs'] at h; exact absurd h hroot
      · exact hs'
    rw [hstem]
    constructor
    · intro h
      have h' : removingProcess rootWords s = s := by simpa using h
      have h1 : IsRootWord rootWords (removingProcess rootWords s) = false := by
        rw [h']; exact hnr
      right
      rw [← (removingProcess_not_root rootWords s h1).1, h']
    · intro h
      have h' : removeInflectionSuffixes s = s := by
        rcases h with h | h
        · exact absurd h hroot
        · exact h
      have h1 : IsRootWord rootWords (removingProcess rootWords (ToLower lc w)) = false := by
        rw [hsrc]; exact hnr
      obtain ⟨e1, _, e2, e3, e4⟩ := removingProcess_not_root rootWords (ToLower lc w) h1
      rw [hsrc] at e1
      rw [← e1] at e2 e3 e4
      unfold removingProcess
      dsimp only
      rw [e3, if_neg (by simp [hnr]), h', e2, if_neg (by simp [hnr]), e3, e4]

/-- Instance of `stemm_fixpoint_amended`: the dictionary `["cinta", "buku"]` and the word "cintanya", with the ASCII lower-casing. -/
theorem stemm_fixpoint_amended_witness :
    (∀ c, Char.toLower (Char.toLower c) = Char.toLower c) ∧
    (∀ c ∈ str "rmpntkgsl", Char.toLower c = c) ∧
    Stemm Char.toLower [str "cinta", str "buku"] [str "cintanya"] = [str "cinta"] ∧
    (Stemm Char.toLower [str "cinta", str "buku"] [str "cinta"] = [str "cinta"] ↔
      (IsRootWord [str "cinta", str "buku"] (ToLower Char.toLower (str "cinta")) = true ∨
        removeInflectionSuffixes (str "cinta") = str "cinta")) :=
  ⟨toLower_toLower, by decide, by decide,
    stemm_fixpoint_amended Char.toLower toLower_toLower (by decide)
      [str "cinta", str "buku"] (str "cintanya") (str "cinta") (by decide)⟩

/-! ## The disallowed-combination guard -/

/-- C5, as stated, fails: "tekaan" matches the disallowed pattern `te-...-an`, and
with "teka" in the dictionary `removeDerivationSuffixes` returns "teka", not the
word itself. -/
theorem guard_counterexample :
    isDisallowedPrefixSuffixes (str "tekaan") = true ∧
    removeDerivationSuffixes [str "teka"] (str "tekaan") = str "teka" ∧
    removeDerivationSuffixes [str "teka"] (str "tekaan") ≠ str "tekaan" := by
  decide

/-- C5, amended. For a word `w` matching a disallowed prefix+suffix pattern,
`removeDerivationSuffixes` returns `w` unchanged when no form of `w` without a
trailing `kan`, `an` or `i` is a root; a dictionary hit is accepted all the same:
the form without `kan` when that is a root, else the form without `an` or `i`
when that is a root. -/
theorem guard_amended (rootWords : List Word) (w : Word)
    (hd : isDisallowedPrefixSuffixes w = true) :
    ((∀ s ∈ [str "kan", str "an", str "i"], ∀ b, w = b ++ s → IsRootWord rootWords b = false) →
      removeDerivationSuffixes rootWords w = w) ∧
    (∀ b, w = b ++ str "kan" → IsRootWord rootWords b = true →
      removeDerivationSuffixes rootWords w = b) ∧
    (∀ s ∈ [str "an", str "i"], ∀ b, w = b ++ s → IsRootWord rootWords b = true →
      (∀ b', w = b' ++ str "kan" → IsRootWord rootWords b' = false) →
      removeDerivationSuffixes rootWords w = b) := by
  have _ := hd
  have hk : ∀ b, w = b ++ str "kan" →
      endsWithAny [str "kan"] w = true ∧ removeEnd [str "kan"] w = b := by
    intro b hb
    subst hb
    exact ⟨(endsWithAny_iff _ _).mpr ⟨_, List.mem_singleton_self _, b, rfl⟩, removeEnd_kan b⟩
  have ha : ∀ s ∈ [str "an", str "i"], ∀ b, w = b ++ s →
      endsWithAny [str "an", str "i"] w = true ∧ removeEnd [str "an", str "i"] w = b := by
    intro s hs b hb
    subst hb
    refine ⟨(endsWithAny_iff _ _).mpr ⟨s, hs, b, rfl⟩, ?_⟩
    simp only [List.mem_cons, List.mem_singleton, List.not_mem_nil, or_false] at hs
    rcases hs with rfl | rfl
    · exact removeEnd_an b
    · exact removeEnd_i b
  refine ⟨?_, ?_, ?_⟩
  · intro hno
    rcases removeDerivationSuffixes_cases rootWords w with ⟨_, he, hr⟩ | ⟨_, he, hr, _⟩ | ⟨h, _⟩
    · obtain ⟨s, hs, b, hb⟩ := (endsWithAny_iff _ _).mp he
      rw [List.mem_singleton] at hs
      subst hs
      rw [(hk b hb).2, hno _ (by simp) b hb] at hr
      cases hr
    · obtain ⟨s, hs, b, hb⟩ := (endsWithAny_iff _ _).mp he
      rw [(ha s hs b hb).2, hno s (List.mem_cons_of_mem _ hs) b hb] at hr
      cases hr
    · exact h
  · intro b hb hroot
    obtain ⟨he, hrm⟩ := hk b hb
    rcases removeDerivationSuffixes_cases rootWords w with ⟨h, _⟩ | ⟨_, _, _, hn⟩ | ⟨_, hn, _⟩
    · rw [h, hrm]
    · have := hn he
      rw [hrm, hroot] at this
      cases this
    · have := hn he
      rw [hrm, hroot] at this
      cases this
  · intro s hs b hb hroot hnk
    obtain ⟨he, hrm⟩ := ha s hs b hb
    rcases removeDerivationSuffixes_cases rootWords w with ⟨_, hek, hr⟩ | ⟨h, _⟩ | ⟨_, _, hn⟩
    · obtain ⟨t, ht, b', hb'⟩ := (endsWithAny_iff _ _).mp hek
      rw [List.mem_singleton] at ht
      subst ht
      rw [(hk b' hb').2, hnk b' hb'] at hr
      cases hr
    · rw [h, hrm]
    · have := hn he
      rw [hrm, hroot] at this
      cases this

/-- Instance of `guard_amended`: the dictionary `["teka"]` and the disallowed word "tekaan", whose form without `-an` is a root. -/
theorem guard_amended_witness :
    isDisallowedPrefixSuffixes (str "tekaan") = true ∧
    (∀ b, str "tekaan" = b ++ str "kan" → IsRootWord [str "teka"] b = false) ∧
    removeDerivationSuffixes [str "teka"] (str "tekaan") = str "teka" :=
  have hnk : ∀ b, str "tekaan" = b ++ str "kan" → IsRootWord [str "teka"] b = false := by
    intro b hb
    have hlen : b.length = 3 := by
      have := congrArg List.length hb
      simp [str] at this
      omega
    have hb' : b = (str "tekaan").take 3 := by
      rw [hb, ← hlen, List.take_left']
      rfl
    subst hb'
    simp [str] at hb
  ⟨by decide, hnk,
    (guard_amended [str "teka"] (str "tekaan") (by decide)).2.2 (str "an") (by decide)
      (str "teka") (by decide) (by decide) hnk⟩

/-! ## Casing of the result -/

/-- C7 fails on the code: with "buku" and "ekonomi" in the dictionary the stem
returned for "Buku" is "Buku" itself, which differs from its lower-casing "buku",
the dictionary word found at the lookup. The other branch of the same loop
returns a lower-case stem: "Perekonomian" gives "ekonomi". -/
theorem stemm_lowercase_fails :
    IsRootWord [str "buku", str "ekonomi"] (ToLower Char.toLower (str "Buku")) = true ∧
    Stemm Char.toLower [str "buku", str "ekonomi"] [str "Buku"] = [str "Buku"] ∧
    ToLower Char.toLower (str "Buku") = str "buku" ∧
    ToLower Char.toLower (str "Buku") ≠ str "Buku" ∧
    Stemm Char.toLower [str "buku", str "ekonomi"] [str "Perekonomian"] = [str "ekonomi"] := by
  decide

/-- The branch of `Stemm` taken when the lower-cased input is not a root returns a
lower-case stem (equal to its own lower-casing), for a lower-casing map that is
idempotent and fixes the letters of the restorations. -/
theorem stemm_lower_of_not_root (lc : Char → Char) (hidem : ∀ c, lc (lc c) = lc c)
    (hfix : ∀ c ∈ str "rmpntkgsl", lc c = c) (rootWords : List Word) (w : Word)
    (h : IsRootWord rootWords (ToLower lc w) = false) :
    ∃ s, Stemm lc rootWords [w] = [s] ∧ ToLower lc s = s := by
  rw [Stemm_single]
  unfold stemOf
  dsimp only
  rw [if_neg (Bool.eq_false_iff.mp h)]
  exact ⟨_, rfl, removingProcess_lower lc hidem hfix rootWords w⟩

/-! ## Simple prefix strip -/

/-- C9. Simple prefix strip: for a prefix `p` among `di`, `ke`, `se` and a non-empty
root `x` made of lower-case letters, when `p ++ x` is not itself a root the
prefix remover alone returns `x`, and `Stemm` returns `[x]`. The lower-casing map
is assumed to fix the lower-case letters `a`-`z`. -/
theorem stemm_simple_prefix (lc : Char → Char) (hlc : ∀ c, c.isLower = true → lc c = c)
    (rootWords : List Word) (p x : Word) (hp : p ∈ [str "di", str "ke", str "se"])
    (hx : x ≠ []) (hxl : ∀ c ∈ x, c.isLower = true)
    (hroot : IsRootWord rootWords x = true) (hnot : IsRootWord rootWords (p ++ x) = false) :
    removeDerivationPrefixes rootWords (p ++ x) = x ∧ Stemm lc rootWords [p ++ x] = [x] := by
  obtain ⟨a, l, rfl⟩ := List.exists_cons_of_ne_nil hx
  have hns : nonSpace a = true := nonSpace_of_isLower a (hxl a (List.mem_cons_self _ _))
  have hpl : ∀ c ∈ p, c.isLower = true := by
    simp only [List.mem_cons, List.mem_singleton, List.not_mem_nil, or_false] at hp
    rcases hp with rfl | rfl | rfl <;> decide
  have hstd : (startsWith (lits "di" ++ [nonSpace]) (p ++ a :: l)
      || startsWith ([oneOf "ks"] ++ lits "e" ++ [nonSpace]) (p ++ a :: l)) = true := by
    simp only [List.mem_cons, List.mem_singleton, List.not_mem_nil, or_false] at hp
    rcases hp with rfl | rfl | rfl <;> simp [startsWith, lits, str, oneOf, hns]
  have hrep : replaceAtStart [str "di", str "ke", str "se"] [] (p ++ a :: l) = a :: l := by
    simp only [List.mem_cons, List.mem_singleton, List.not_mem_nil, or_false] at hp
    rcases hp with rfl | rfl | rfl <;> simp [replaceAtStart, str]
  have hpre : removeDerivationPrefixes rootWords (p ++ a :: l) = a :: l := by
    rw [removeDerivationPrefixes_std _ _ hstd]
    unfold stdCandidates
    rw [List.singleton_append, hrep, attempts_hit _ _ _ _ hroot]
  refine ⟨hpre, ?_⟩
  have hlow : ToLower lc (p ++ a :: l) = p ++ a :: l := by
    rw [toLower_eq_self_iff]
    intro c hc
    rcases List.mem_append.mp hc with h | h
    · exact hlc c (hpl c h)
    · exact hlc c (hxl c h)
  rw [Stemm_single]
  unfold stemOf
  dsimp only
  rw [hlow, if_neg (by simp [hnot])]
  unfold removingProcess
  dsimp only
  rw [hpre, if_pos hroot]

/-- Instance of `stemm_simple_prefix`: the dictionary `["buang"]` and the word "dibuang". -/
theorem stemm_simple_prefix_witness :
    (∀ c, c.isLower = true → Char.toLower c = c) ∧
    str "di" ∈ [str "di", str "ke", str "se"] ∧
    str "buang" ≠ [] ∧
    (∀ c ∈ str "buang", c.isLower = true) ∧
    IsRootWord [str "buang"] (str "buang") = true ∧
    IsRootWord [str "buang"] (str "di" ++ str "buang") = false ∧
    removeDerivationPrefixes [str "buang"] (str "di" ++ str "buang") = str "buang" ∧
    Stemm Char.toLower [str "buang"] [str "di" ++ str "buang"] = [str "buang"] :=
  ⟨toLower_of_isLower, by decide, by decide, by decide, by decide, by decide,
    stemm_simple_prefix Char.toLower toLower_of_isLower [str "buang"] (str "di") (str "buang") (by decide)
      (by decide) (by decide) (by decide) (by decide)⟩

/-! ## A multi-step scenario -/

/-- C10. Multi-step scenario: for every dictionary that contains "baik" and none of
"kebaikannya", "baikannya", "kebaikan", "kebaik", "kebai", "baikan", "bai", the
stem of "kebaikannya" is "baik": the possessive `-nya` is removed, then `ke-` is
stripped on the second prefix pass, where `-an` is removed inside the prefix
remover. The lower-casing map is assumed to fix the lower-case letters `a`-`z`. -/
theorem stemm_kebaikannya (lc : Char → Char) (hlc : ∀ c, c.isLower = true → lc c = c)
    (rootWords : List Word) (hbaik : str "baik" ∈ rootWords)
    (hno : ∀ x ∈ [str "kebaikannya", str "baikannya", str "kebaikan", str "kebaik",
      str "kebai", str "baikan", str "bai"], x ∉ rootWords) :
    removeInflectionSuffixes (str "kebaikannya") = str "kebaikan" ∧
    removeDerivationSuffixes rootWords (str "kebaikan") = str "kebaikan" ∧
    removeDerivationPrefixes rootWords (str "kebaikan") = str "baik" ∧
    Stemm lc rootWords [str "kebaikannya"] = [str "baik"] := by
  have hr : IsRootWord rootWords (str "baik") = true := decide_eq_true hbaik
  have hn : ∀ x ∈ [str "kebaikannya", str "baikannya", str "kebaikan", str "kebaik",
      str "kebai", str "baikan", str "bai"], IsRootWord rootWords x = false := by
    intro x hx
    exact decide_eq_false (hno x hx)
  have n1 := hn (str "kebaikannya") (by decide)
  have n2 := hn (str "baikannya") (by decide)
  have n3 := hn (str "kebaikan") (by decide)
  have n4 := hn (str "kebaik") (by decide)
  have n5 := hn (str "kebai") (by decide)
  have n6 := hn (str "baikan") (by decide)
  have n7 := hn (str "bai") (by decide)
  -- first prefix pass: `ke-` is stripped, nothing validates
  have s1 : removeDerivationSuffixes rootWords (str "baikannya") = str "baikannya" :=
    removeDerivationSuffixes_eq_self _ _ (fun h => absurd h (by decide))
      (fun h => absurd h (by decide))
  have p0 : removeDerivationPrefixes rootWords (str "kebaikannya") = str "kebaikannya" := by
    rw [removeDerivationPrefixes_std _ _ (by decide)]
    rw [show stdCandidates (str "kebaikannya") = [str "baikannya"] by decide]
    rw [attempts_miss _ _ _ _ n2 (by rw [s1]; exact n2)]
    rfl
  -- suffix pass
  have p1 : removeInflectionSuffixes (str "kebaikannya") = str "kebaikan" := by decide
  have p2 : removeDerivationSuffixes rootWords (str "kebaikan") = str "kebaikan" :=
    removeDerivationSuffixes_eq_self _ _
      (fun _ => by
        rw [show removeEnd [str "kan"] (str "kebaikan") = str "kebai" by decide]; exact n5)
      (fun _ => by
        rw [show removeEnd [str "an", str "i"] (str "kebaikan") = str "kebaik" by decide]
        exact n4)
  -- second prefix pass
  have e3 : removeEnd [str "an", str "i"] (str "baikan") = str "baik" := by decide
  have s3 : removeDerivationSuffixes rootWords (str "baikan") = str "baik" := by
    rw [removeDerivationSuffixes_eq_an _ _
      (fun _ => by
        rw [show removeEnd [str "kan"] (str "baikan") = str "bai" by decide]; exact n7)
      (by decide) (by rw [e3]; exact hr), e3]
  have p3 : removeDerivationPrefixes rootWords (str "kebaikan") = str "baik" := by
    rw [removeDerivationPrefixes_std _ _ (by decide)]
    rw [show stdCandidates (str "kebaikan") = [str "baikan"] by decide]
    rw [attempts_hit_suffix _ _ _ _ n6 (by rw [s3]; exact hr), s3]
  have p4 : removeDerivationPeople rootWords (str "baik") = str "baik" :=
    removeDerivationPeople_eq_self _ _ (fun h => absurd h (by decide))
      (fun h => absurd h (by decide))
  refine ⟨p1, p2, p3, ?_⟩
  have hlow : ToLower lc (str "kebaikannya") = str "kebaikannya" := by
    rw [toLower_eq_self_iff]
    intro c hc
    exact hlc c (by revert c; decide)
  rw [Stemm_single]
  unfold stemOf
  dsimp only
  rw [hlow, if_neg (Bool.eq_false_iff.mp n1)]
  unfold removingProcess
  dsimp only
  rw [p0, if_neg (Bool.eq_false_iff.mp n1), p1, p2, if_neg (Bool.eq_false_iff.mp n3), p3, p4]

/-- Instance of `stemm_kebaikannya`: the dictionary `["baik", "sakit"]`. -/
theorem stemm_kebaikannya_witness :
    (∀ c, c.isLower = true → Char.toLower c = c) ∧
    str "baik" ∈ [str "baik", str "sakit"] ∧
    (∀ x ∈ [str "kebaikannya", str "baikannya", str "kebaikan", str "kebaik",
      str "kebai", str "baikan", str "bai"], x ∉ [str "baik", str "sakit"]) ∧
    (removeInflectionSuffixes (str "kebaikannya") = str "kebaikan" ∧
      removeDerivationSuffixes [str "baik", str "sakit"] (str "kebaikan") = str "kebaikan" ∧
      removeDerivationPrefixes [str "baik", str "sakit"] (str "kebaikan") = str "baik" ∧
      Stemm Char.toLower [str "baik", str "sakit"] [str "kebaikannya"] = [str "baik"]) :=
  ⟨toLower_of_isLower, by decide, by decide,
    stemm_kebaikannya Char.toLower toLower_of_isLower [str "baik", str "sakit"] (by decide)
      (by decide)⟩

/-! ## Building the dictionary -/

theorem mem_keys_mapSet (m : List (Word × Nat)) (key : Word) (value : Nat) (w : Word) :
    w ∈ (mapSet m key value).map Prod.fst ↔ w = key ∨ w ∈ m.map Prod.fst := by
  unfold mapSet
  simp only [List.map_cons, List.mem_cons, List.mem_map, List.mem_filter, bne_iff_ne, ne_eq,
    Prod.exists, exists_and_right, exists_eq_right]
  constructor
  · rintro (h | ⟨⟨v, hv⟩, _⟩)
    · exact Or.inl h
    · exact Or.inr ⟨v, hv⟩
  · rintro (h | ⟨v, hv⟩)
    · exact Or.inl h
    · by_cases hk : w = key
      · exact Or.inl hk
      · exact Or.inr ⟨⟨v, hv⟩, hk⟩

theorem nodup_keys_mapSet (m : List (Word × Nat)) (key : Word) (value : Nat)
    (h : (m.map Prod.fst).Nodup) : ((mapSet m key value).map Prod.fst).Nodup := by
  unfold mapSet
  rw [List.map_cons, List.nodup_cons]
  constructor
  · simp
  · exact (h.sublist (List.Sublist.map _ (List.filter_sublist _)))

theorem foldl_mapSet_keys (l : List (Nat × Word)) (m : List (Word × Nat)) (w : Word) :
    w ∈ (l.foldl (fun m kw => mapSet m kw.2 kw.1) m).map Prod.fst ↔
      w ∈ l.map Prod.snd ∨ w ∈ m.map Prod.fst := by
  induction l generalizing m with
  | nil => simp
  | cons kw l ih =>
    rw [List.foldl_cons, ih, mem_keys_mapSet, List.map_cons, List.mem_cons]
    tauto

theorem foldl_mapSet_nodup (l : List (Nat × Word)) (m : List (Word × Nat))
    (h : (m.map Prod.fst).Nodup) :
    ((l.foldl (fun m kw => mapSet m kw.2 kw.1) m).map Prod.fst).Nodup := by
  induction l generalizing m with
  | nil => exact h
  | cons kw l ih =>
    rw [List.foldl_cons]
    exact ih _ (nodup_keys_mapSet m _ _ h)

theorem not_mem_of_mem_splitOn (a : Char) (l : Word) : ∀ t ∈ l.splitOn a, a ∉ t := by
  unfold List.splitOn
  induction l with
  | nil => simp
  | cons c cs ih =>
    rw [List.splitOnP_cons]
    split_ifs with h
    · intro t ht
      rcases List.mem_cons.mp ht with rfl | ht
      · simp
      · exact ih t ht
    · intro t ht
      cases hsp : List.splitOnP (fun x => x == a) cs with
      | nil => rw [hsp] at ht; simp [List.modifyHead] at ht
      | cons u us =>
        rw [hsp] at ht ih
        simp only [List.modifyHead, List.mem_cons] at ht
        rcases ht with rfl | ht
        · intro hmem
          rcases List.mem_cons.mp hmem with rfl | hmem
          · simp at h
          · exact ih u (List.mem_cons_self _ _) hmem
        · exact ih t (List.mem_cons_of_mem _ ht)

/-- C12. Dictionary construction and lookup: after `InitRootWords` on the word list
`data`, `IsRootWord w` holds exactly when `w` is one of the pieces of `data`
between single spaces (these pieces contain no space and, joined by single
spaces, give back `data`); each piece is a key once, and the lookup compares the
word as it is, with no normalisation. -/
theorem initRootWords_lookup (data : Word) :
    (∀ w, IsRootWord (InitRootWords data) w = true ↔ w ∈ data.splitOn ' ') ∧
    (InitRootWords data).Nodup ∧
    (∀ t ∈ data.splitOn ' ', ' ' ∉ t) ∧
    [' '].intercalate (data.splitOn ' ') = data := by
  refine ⟨?_, ?_, not_mem_of_mem_splitOn ' ' data, List.intercalate_splitOn data ' '⟩
  · intro w
    unfold IsRootWord InitRootWords
    dsimp only
    rw [decide_eq_true_iff, foldl_mapSet_keys]
    simp [List.enum_map_snd]
  · unfold InitRootWords
    dsimp only
    exact foldl_mapSet_nodup _ [] (by simp)

/-! ## A two-layer prefix scenario -/

theorem removeDerivationPrefixes_affixed (rw : List Word) (w : Word)
    (h1 : (startsWith (lits "di" ++ [nonSpace]) w
      || startsWith ([oneOf "ks"] ++ lits "e" ++ [nonSpace]) w) = false)
    (h3 : startsWith ([oneOf "tmbp"] ++ lits "e" ++ [nonSpace]) w = true) :
    removeDerivationPrefixes rw w =
      match attempts rw (beCandidates w) [] with
      | .ret result => result
      | .next s1 =>
        match teBlock rw w s1 with
        | .ret result => result
        | .next s2 =>
          match attempts rw (meCandidates w) s2 with
          | .ret result => result
          | .next s3 =>
            match attempts rw (peCandidates (if s3.length ≠ 0 then s3 else w)) s3 with
            | .ret result => result
            | .next _ => w := by
  unfold removeDerivationPrefixes
  dsimp only
  rw [if_neg (Bool.eq_false_iff.mp h1), if_neg (by simp [matchReduplicative]), if_pos h3]

theorem teBlock_of_not_te (rw : List Word) (w s : Word)
    (h : startsWith (lits "te" ++ [nonSpace]) w = false) : teBlock rw w s = .next s := by
  unfold teBlock
  rw [if_neg (Bool.eq_false_iff.mp h)]

/-- C11. Two-layer prefix scenario: for every dictionary that contains "ajar" and
none of "mempelajari", "pelajari", "pelajar", "lajari", "lajar", "ajari", the stem
of "mempelajari" is "ajar". The `mem-` strip leaves "pelajari", which is not
validated and becomes the word examined by the `pe-` block; there the `l-`
restoration "lajari" fails, and the `pelajar` exception strips `pel-`, after which
the suffix pass strips `-i`. The lower-casing map is assumed to fix the
lower-case letters `a`-`z`. -/
theorem stemm_mempelajari (lc : Char → Char) (hlc : ∀ c, c.isLower = true → lc c = c)
    (rootWords : List Word) (hajar : str "ajar" ∈ rootWords)
    (hno : ∀ x ∈ [str "mempelajari", str "pelajari", str "pelajar", str "lajari",
      str "lajar", str "ajari"], x ∉ rootWords) :
    meCandidates (str "mempelajari") = [str "pelajari"] ∧
    peCandidates (str "pelajari") = [str "lajari", str "ajari"] ∧
    removeDerivationPrefixes rootWords (str "mempelajari") = str "ajar" ∧
    Stemm lc rootWords [str "mempelajari"] = [str "ajar"] := by
  have hr : IsRootWord rootWords (str "ajar") = true := decide_eq_true hajar
  have hn : ∀ x ∈ [str "mempelajari", str "pelajari", str "pelajar", str "lajari",
      str "lajar", str "ajari"], IsRootWord rootWords x = false := by
    intro x hx
    exact decide_eq_false (hno x hx)
  have n1 := hn (str "mempelajari") (by decide)
  have n2 := hn (str "pelajari") (by decide)
  have n3 := hn (str "pelajar") (by decide)
  have n4 := hn (str "lajari") (by decide)
  have n5 := hn (str "lajar") (by decide)
  have n6 := hn (str "ajari") (by decide)
  have hme : meCandidates (str "mempelajari") = [str "pelajari"] := by decide
  have hpe : peCandidates (str "pelajari") = [str "lajari", str "ajari"] := by decide
  -- the `me-` block: "pelajari" and its form without `-i` are no roots
  have s1 : removeDerivationSuffixes rootWords (str "pelajari") = str "pelajari" :=
    removeDerivationSuffixes_eq_self _ _ (fun h => absurd h (by decide))
      (fun _ => by
        rw [show removeEnd [str "an", str "i"] (str "pelajari") = str "pelajar" by decide]
        exact n3)
  -- the `pe-` block on the folded word "pelajari"
  have s2 : removeDerivationSuffixes rootWords (str "lajari") = str "lajari" :=
    removeDerivationSuffixes_eq_self _ _ (fun h => absurd h (by decide))
      (fun _ => by
        rw [show removeEnd [str "an", str "i"] (str "lajari") = str "lajar" by decide]
        exact n5)
  have e3 : removeEnd [str "an", str "i"] (str "ajari") = str "ajar" := by decide
  have s3 : removeDerivationSuffixes rootWords (str "ajari") = str "ajar" := by
    rw [removeDerivationSuffixes_eq_an _ _ (fun h => absurd h (by decide)) (by decide)
      (by rw [e3]; exact hr), e3]
  have p0 : removeDerivationPrefixes rootWords (str "mempelajari") = str "ajar" := by
    rw [removeDerivationPrefixes_affixed _ _ (by decide) (by decide)]
    rw [show beCandidates (str "mempelajari") = [] by decide]
    rw [show attempts rootWords [] [] = Flow.next [] by rfl]
    dsimp only
    rw [teBlock_of_not_te _ _ _ (by decide)]
    dsimp only
    rw [hme, attempts_miss _ _ _ _ n2 (by rw [s1]; exact n2), s1]
    rw [show attempts rootWords [] (str "pelajari") = Flow.next (str "pelajari") by rfl]
    dsimp only
    rw [show (if (str "pelajari").length ≠ 0 then str "pelajari" else str "mempelajari")
      = str "pelajari" by decide]
    rw [hpe, attempts_miss _ _ _ _ n4 (by rw [s2]; exact n4),
      attempts_hit_suffix _ _ _ _ n6 (by rw [s3]; exact hr), s3]
  refine ⟨hme, hpe, p0, ?_⟩
  have hlow : ToLower lc (str "mempelajari") = str "mempelajari" := by
    rw [toLower_eq_self_iff]
    intro c hc
    exact hlc c (by revert c; decide)
  rw [Stemm_single]
  unfold stemOf
  dsimp only
  rw [hlow, if_neg (Bool.eq_false_iff.mp n1)]
  unfold removingProcess
  dsimp only
  rw [p0, if_pos hr]

/-- Instance of `stemm_mempelajari`: the dictionary `["ajar", "baru"]`. -/
theorem stemm_mempelajari_witness :
    (∀ c, c.isLower = true → Char.toLower c = c) ∧
    str "ajar" ∈ [str "ajar", str "baru"] ∧
    (∀ x ∈ [str "mempelajari", str "pelajari", str "pelajar", str "lajari",
      str "lajar", str "ajari"], x ∉ [str "ajar", str "baru"]) ∧
    (meCandidates (str "mempelajari") = [str "pelajari"] ∧
      peCandidates (str "pelajari") = [str "lajari", str "ajari"] ∧
      removeDerivationPrefixes [str "ajar", str "baru"] (str "mempelajari") = str "ajar" ∧
      Stemm Char.toLower [str "ajar", str "baru"] [str "mempelajari"] = [str "ajar"]) :=
  ⟨toLower_of_isLower, by decide, by decide,
    stemm_mempelajari Char.toLower toLower_of_isLower [str "ajar", str "baru"] (by decide)
      (by decide)⟩

/-! ## Shape of every result -/

/-- C13. Shape of every result: with `l` the lower-cased input, the stem `Stemm`
returns is the input itself when `l` is a root, or a root word of the
dictionary, or `removeInflectionSuffixes l`. A derivational prefix or suffix is
thus removed only when the outcome is a dictionary root. -/
theorem stemm_shape (lc : Char → Char) (rootWords : List Word) (w : Word) :
    ∃ s, Stemm lc rootWords [w] = [s] ∧
      ((IsRootWord rootWords (ToLower lc w) = true ∧ s = w) ∨
        IsRootWord rootWords s = true ∨
        s = removeInflectionSuffixes (ToLower lc w)) := by
  refine ⟨stemOf lc rootWords w, Stemm_single lc rootWords w, ?_⟩
  unfold stemOf
  dsimp only
  split_ifs with h
  · exact Or.inl ⟨h, rfl⟩
  · right
    cases hr : IsRootWord rootWords (removingProcess rootWords (ToLower lc w)) with
    | true => exact Or.inl rfl
    | false => exact Or.inr (removingProcess_not_root rootWords _ hr).1

/-! ## Inflectional suffixes -/

theorem removeEnd_particle (y p : Word)
    (hp : p ∈ [str "lah", str "kah", str "tah", str "pun"]) :
    endsWithAny inflectionSuffixes (y ++ p) = true ∧
      removeEnd inflectionSuffixes (y ++ p) = y := by
  refine ⟨(endsWithAny_iff _ _).mpr ⟨p, ?_, y, rfl⟩, ?_⟩
  · revert hp; revert p; decide
  · simp only [List.mem_cons, List.mem_singleton, List.not_mem_nil, or_false] at hp
    rcases hp with rfl | rfl | rfl | rfl <;>
      simp [removeEnd, inflectionSuffixes, str, List.isSuffixOf, List.isPrefixOf,
        -List.isSuffixOf_iff_suffix, -List.isPrefixOf_iff_prefix]

theorem removeEnd_pronoun (x q : Word) (hq : q ∈ [str "ku", str "mu", str "nya"]) :
    endsWithAny possessivePronouns (x ++ q) = true ∧
      removeEnd possessivePronouns (x ++ q) = x := by
  refine ⟨(endsWithAny_iff _ _).mpr ⟨q, ?_, x, rfl⟩, ?_⟩
  · revert hq; revert q; decide
  · simp only [List.mem_cons, List.mem_singleton, List.not_mem_nil, or_false] at hq
    rcases hq with rfl | rfl | rfl <;>
      simp [removeEnd, possessivePronouns, str, List.isSuffixOf, List.isPrefixOf,
        -List.isSuffixOf_iff_suffix, -List.isPrefixOf_iff_prefix]

theorem removeEnd_inflection_pronoun (x q : Word)
    (hq : q ∈ [str "ku", str "mu", str "nya"]) :
    endsWithAny inflectionSuffixes (x ++ q) = true ∧
      removeEnd inflectionSuffixes (x ++ q) = x := by
  refine ⟨(endsWithAny_iff _ _).mpr ⟨q, ?_, x, rfl⟩, ?_⟩
  · revert hq; revert q; decide
  · simp only [List.mem_cons, List.mem_singleton, List.not_mem_nil, or_false] at hq
    rcases hq with rfl | rfl | rfl <;>
      simp [removeEnd, inflectionSuffixes, str, List.isSuffixOf, List.isPrefixOf,
        -List.isSuffixOf_iff_suffix, -List.isPrefixOf_iff_prefix]

/-- C14. Particle and possessive co-occurrence: for every word `x`, every
possessive pronoun `q` among `ku`, `mu`, `nya` and every particle `p` among
`lah`, `kah`, `tah`, `pun`, `removeInflectionSuffixes (x ++ q ++ p) = x`: both
suffixes go in one call, and no dictionary is consulted. -/
theorem removeInflectionSuffixes_pronoun_particle (x q p : Word)
    (hq : q ∈ [str "ku", str "mu", str "nya"])
    (hp : p ∈ [str "lah", str "kah", str "tah", str "pun"]) :
    removeInflectionSuffixes (x ++ q ++ p) = x := by
  obtain ⟨h1, h2⟩ := removeEnd_particle (x ++ q) p hp
  obtain ⟨h3, h4⟩ := removeEnd_pronoun x q hq
  unfold removeInflectionSuffixes
  dsimp only
  rw [if_pos h1, h2, if_pos h3, h4]

/-- Instance of `removeInflectionSuffixes_pronoun_particle`: "bukumukah". -/
theorem removeInflectionSuffixes_pronoun_particle_witness :
    str "mu" ∈ [str "ku", str "mu", str "nya"] ∧
    str "kah" ∈ [str "lah", str "kah", str "tah", str "pun"] ∧
    removeInflectionSuffixes (str "buku" ++ str "mu" ++ str "kah") = str "buku" :=
  ⟨by decide, by decide,
    removeInflectionSuffixes_pronoun_particle (str "buku") (str "mu") (str "kah") (by decide)
      (by decide)⟩

/-- What `removeInflectionSuffixes` does on a word ending with a possessive
pronoun: the pronoun is removed, and then a possessive pronoun the rest ends
with is removed as well. -/
theorem removeInflectionSuffixes_pronoun (x q : Word)
    (hq : q ∈ [str "ku", str "mu", str "nya"]) :
    removeInflectionSuffixes (x ++ q) = removeEnd possessivePronouns x := by
  obtain ⟨h1, h2⟩ := removeEnd_inflection_pronoun x q hq
  unfold removeInflectionSuffixes
  dsimp only
  rw [if_pos h1, h2]
  split_ifs with h
  · rfl
  · exact (removeEnd_of_not_endsWithAny _ _ (by simpa using h)).symm

/-- C15 fails on the code: the word "bukunya" is "buku" followed by the lone
possessive pronoun `nya`, yet `removeInflectionSuffixes` returns "bu", having
removed `ku` as well; with "buku" in the dictionary `Stemm` returns "bu". -/
theorem removeInflectionSuffixes_lone_pronoun_fails :
    str "nya" ∈ [str "ku", str "mu", str "nya"] ∧
    removeInflectionSuffixes (str "buku" ++ str "nya") = str "bu" ∧
    removeInflectionSuffixes (str "buku" ++ str "nya") ≠ str "buku" ∧
    Stemm Char.toLower [str "buku"] [str "bukunya"] = [str "bu"] := by
  decide

theorem removeEnd_take (alts : List Word) (w : Word) :
    ∃ n, removeEnd alts w = w.take n := by
  rcases removeEnd_eq alts w with h | ⟨s, _, _, h⟩
  · exact ⟨w.length, by rw [h, List.take_length]⟩
  · exact ⟨_, h⟩

theorem removeEnd_of_endsWithAny (alts : List Word) (w : Word)
    (h : endsWithAny alts w = true) :
    ∃ s ∈ alts, s.isSuffixOf w = true ∧ removeEnd alts w = w.take (w.length - s.length) := by
  induction alts with
  | nil => simp [endsWithAny] at h
  | cons a l ih =>
    unfold removeEnd
    split_ifs with ha
    · exact ⟨a, List.mem_cons_self _ _, ha, rfl⟩
    · have hl : endsWithAny l w = true := by
        simp only [endsWithAny, List.any_cons, Bool.or_eq_true] at h
        rcases h with h | h
        · exact absurd h ha
        · simpa [endsWithAny] using h
      obtain ⟨s, hs, hsuf, he⟩ := ih hl
      exact ⟨s, List.mem_cons_of_mem _ hs, hsuf, he⟩

/-- C16. A word ending with none of `lah`, `kah`, `tah`, `pun`, `ku`, `mu`, `nya` is
returned unchanged by `removeInflectionSuffixes`; a word ending with one of them
is cut to a strictly shorter prefix of itself. The function takes no dictionary,
so its result cannot depend on one. -/
theorem removeInflectionSuffixes_spec (w : Word) :
    ((∀ s ∈ [str "lah", str "kah", str "tah", str "pun", str "ku", str "mu", str "nya"],
        ¬ s <:+ w) → removeInflectionSuffixes w = w) ∧
    ((∃ s ∈ [str "lah", str "kah", str "tah", str "pun", str "ku", str "mu", str "nya"],
        s <:+ w) →
      removeInflectionSuffixes w <+: w ∧ (removeInflectionSuffixes w).length < w.length) := by
  have hmem : ∀ s, s ∈ [str "lah", str "kah", str "tah", str "pun", str "ku", str "mu",
      str "nya"] ↔ s ∈ inflectionSuffixes := by
    intro s
    simp only [inflectionSuffixes, List.mem_cons, List.mem_singleton, List.not_mem_nil,
      or_false]
    tauto
  constructor
  · intro h
    apply removeInflectionSuffixes_of_not_endsWithAny
    rw [Bool.eq_false_iff]
    intro he
    obtain ⟨s, hs, b, hb⟩ := (endsWithAny_iff _ _).mp he
    exact h s ((hmem s).mpr hs) ⟨b, hb.symm⟩
  · rintro ⟨s, hs, b, hb⟩
    have he : endsWithAny inflectionSuffixes w = true :=
      (endsWithAny_iff _ _).mpr ⟨s, (hmem s).mp hs, b, hb.symm⟩
    -- the first removal cuts an ending of two or three letters
    obtain ⟨t, ht, hsuf, h1⟩ := removeEnd_of_endsWithAny _ _ he
    have hpos : ∀ u ∈ inflectionSuffixes, 0 < u.length := by decide
    have htpos : 0 < t.length := hpos t ht
    have htle : t.length ≤ w.length := (List.isSuffixOf_iff_suffix.mp hsuf).length_le
    -- the second removal cuts the end of what is left
    obtain ⟨m, h2⟩ := removeEnd_take possessivePronouns (removeEnd inflectionSuffixes w)
    have key : ∃ n, n < w.length ∧ removeInflectionSuffixes w = w.take n := by
      unfold removeInflectionSuffixes
      dsimp only
      rw [if_pos he]
      split_ifs
      · refine ⟨min m (w.length - t.length), ?_, ?_⟩
        · have := Nat.min_le_right m (w.length - t.length)
          omega
        · rw [h2, h1, List.take_take]
      · exact ⟨w.length - t.length, by omega, h1⟩
    obtain ⟨n, hn, hk⟩ := key
    rw [hk]
    refine ⟨⟨w.drop n, List.take_append_drop n w⟩, ?_⟩
    rw [List.length_take]
    omega

/-- Instance of `removeInflectionSuffixes_spec`: "cinta" ends with no inflectional
suffix, "cintanya" ends with `nya`. -/
theorem removeInflectionSuffixes_spec_witness :
    ((∀ s ∈ [str "lah", str "kah", str "tah", str "pun", str "ku", str "mu", str "nya"],
        ¬ s <:+ str "cinta") ∧ removeInflectionSuffixes (str "cinta") = str "cinta") ∧
    ((∃ s ∈ [str "lah", str "kah", str "tah", str "pun", str "ku", str "mu", str "nya"],
        s <:+ str "cintanya") ∧
      removeInflectionSuffixes (str "cintanya") <+: str "cintanya" ∧
      (removeInflectionSuffixes (str "cintanya")).length < (str "cintanya").length) :=
  have h1 : ∀ s ∈ [str "lah", str "kah", str "tah", str "pun", str "ku", str "mu",
      str "nya"], ¬ s <:+ str "cinta" := by
    intro s hs
    rw [← List.isSuffixOf_iff_suffix]
    revert hs; revert s; decide
  have h2 : ∃ s ∈ [str "lah", str "kah", str "tah", str "pun", str "ku", str "mu",
      str "nya"], s <:+ str "cintanya" := ⟨str "nya", by decide, str "cinta", by decide⟩
  ⟨⟨h1, (removeInflectionSuffixes_spec (str "cinta")).1 h1⟩,
    ⟨h2, (removeInflectionSuffixes_spec (str "cintanya")).2 h2⟩⟩

/-! ## Derivation suffixes -/

theorem removeDerivationSuffixes_append_kan (rw : List Word) (b : Word)
    (h : IsRootWord rw b = true) : removeDerivationSuffixes rw (b ++ str "kan") = b := by
  have he : endsWithAny [str "kan"] (b ++ str "kan") = true :=
    (endsWithAny_iff _ _).mpr ⟨_, List.mem_singleton_self _, b, rfl⟩
  rw [removeDerivationSuffixes_eq_kan rw _ he (by rw [removeEnd_kan]; exact h), removeEnd_kan]

theorem removeDerivationSuffixes_append_an (rw : List Word) (b : Word)
    (h : IsRootWord rw b = true) (hk : ∀ y, b = y ++ str "k" → IsRootWord rw y = false) :
    removeDerivationSuffixes rw (b ++ str "an") = b := by
  have he : endsWithAny [str "an", str "i"] (b ++ str "an") = true :=
    (endsWithAny_iff _ _).mpr ⟨str "an", by decide, b, rfl⟩
  have hnk : endsWithAny [str "kan"] (b ++ str "an") = true →
      IsRootWord rw (removeEnd [str "kan"] (b ++ str "an")) = false := by
    intro hek
    obtain ⟨t, ht, y, hy⟩ := (endsWithAny_iff _ _).mp hek
    rw [List.mem_singleton] at ht
    subst ht
    have hby : b = y ++ str "k" := by
      have h2 : b ++ str "an" = (y ++ str "k") ++ str "an" := by
        rw [hy, List.append_assoc]; rfl
      exact List.append_cancel_right h2
    rw [hy, removeEnd_kan]
    exact hk y hby
  rw [removeDerivationSuffixes_eq_an rw _ hnk he (by rw [removeEnd_an]; exact h), removeEnd_an]

theorem removeDerivationSuffixes_append_i (rw : List Word) (b : Word)
    (h : IsRootWord rw b = true) : removeDerivationSuffixes rw (b ++ str "i") = b := by
  have he : endsWithAny [str "an", str "i"] (b ++ str "i") = true :=
    (endsWithAny_iff _ _).mpr ⟨str "i", by decide, b, rfl⟩
  have hnk : endsWithAny [str "kan"] (b ++ str "i") = true →
      IsRootWord rw (removeEnd [str "kan"] (b ++ str "i")) = false := by
    intro hek
    exfalso
    obtain ⟨t, ht, y, hy⟩ := (endsWithAny_iff _ _).mp hek
    rw [List.mem_singleton] at ht
    subst ht
    have h2 := congrArg List.getLast? hy
    simp [str] at h2
  rw [removeDerivationSuffixes_eq_an rw _ hnk he (by rw [removeEnd_i]; exact h), removeEnd_i]

/-- C17. `removeDerivationSuffixes` returns a different string only on a dictionary
hit: the result is the word itself, or a root word from which the word is
obtained by appending one of `kan`, `an`, `i`. The disallowed-combination guard
has no effect: any predicate in its place gives the same result. -/
theorem removeDerivationSuffixes_spec (rootWords : List Word) (w : Word) :
    (removeDerivationSuffixes rootWords w = w ∨
      (IsRootWord rootWords (removeDerivationSuffixes rootWords w) = true ∧
        ∃ s ∈ [str "kan", str "an", str "i"], w = removeDerivationSuffixes rootWords w ++ s)) ∧
    (∀ guard : Word → Bool,
      removeDerivationSuffixesWith guard rootWords w = removeDerivationSuffixes rootWords w) := by
  constructor
  · rcases removeDerivationSuffixes_cases rootWords w with ⟨h, he, hr⟩ | ⟨h, he, hr, _⟩ | ⟨h, _⟩
    · right
      obtain ⟨t, ht, b, hb⟩ := (endsWithAny_iff _ _).mp he
      rw [List.mem_singleton] at ht
      subst ht
      rw [h]
      refine ⟨hr, str "kan", by decide, ?_⟩
      rw [hb, removeEnd_kan]
    · right
      obtain ⟨t, ht, b, hb⟩ := (endsWithAny_iff _ _).mp he
      rw [h]
      refine ⟨hr, t, List.mem_cons_of_mem _ ht, ?_⟩
      simp only [List.mem_cons, List.mem_singleton, List.not_mem_nil, or_false] at ht
      rcases ht with rfl | rfl
      · rw [hb, removeEnd_an]
      · rw [hb, removeEnd_i]
    · exact Or.inl h
  · intro guard
    unfold removeDerivationSuffixesWith removeDerivationSuffixes
    dsimp only
    rw [ite_self, ite_self]

/-- C18. Derivation suffix on a root, `-kan` tried first: for a root `x`,
`removeDerivationSuffixes` maps `x ++ "kan"` and `x ++ "i"` to `x`; it maps
`x ++ "an"` to `x` unless `x = y ++ "k"` with `y` a root, and then to `y`. -/
theorem removeDerivationSuffixes_on_root (rootWords : List Word) (x : Word)
    (hx : IsRootWord rootWords x = true) :
    removeDerivationSuffixes rootWords (x ++ str "kan") = x ∧
    removeDerivationSuffixes rootWords (x ++ str "i") = x ∧
    ((¬ ∃ y, x = y ++ str "k" ∧ IsRootWord rootWords y = true) →
      removeDerivationSuffixes rootWords (x ++ str "an") = x) ∧
    (∀ y, x = y ++ str "k" → IsRootWord rootWords y = true →
      removeDerivationSuffixes rootWords (x ++ str "an") = y) := by
  refine ⟨removeDerivationSuffixes_append_kan _ x hx, removeDerivationSuffixes_append_i _ x hx,
    ?_, ?_⟩
  · intro hno
    apply removeDerivationSuffixes_append_an _ x hx
    intro y hy
    rw [Bool.eq_false_iff]
    exact fun hr => hno ⟨y, hy, hr⟩
  · intro y hy hr
    subst hy
    have h2 : y ++ str "k" ++ str "an" = y ++ str "kan" := by
      rw [List.append_assoc]; rfl
    rw [h2]
    exact removeDerivationSuffixes_append_kan _ y hr

/-- Instance of `removeDerivationSuffixes_on_root`, in the dictionary
`["cinta", "baik", "bai"]`: the root "cinta", and the root "baik", which is "bai"
followed by `k`, so that "baikan" gives "bai". -/
theorem removeDerivationSuffixes_on_root_witness :
    IsRootWord [str "cinta", str "baik", str "bai"] (str "cinta") = true ∧
    removeDerivationSuffixes [str "cinta", str "baik", str "bai"] (str "cinta" ++ str "kan")
      = str "cinta" ∧
    removeDerivationSuffixes [str "cinta", str "baik", str "bai"] (str "cinta" ++ str "i")
      = str "cinta" ∧
    IsRootWord [str "cinta", str "baik", str "bai"] (str "baik") = true ∧
    removeDerivationSuffixes [str "cinta", str "baik", str "bai"] (str "baik" ++ str "an")
      = str "bai" :=
  have h := removeDerivationSuffixes_on_root [str "cinta", str "baik", str "bai"] (str "cinta")
    (by decide)
  have h2 := removeDerivationSuffixes_on_root [str "cinta", str "baik", str "bai"] (str "baik")
    (by decide)
  ⟨by decide, h.1, h.2.1, by decide, h2.2.2.2 (str "bai") (by decide) (by decide)⟩

/-! ## People suffixes -/

theorem removeDerivationPeople_eq_first (rw : List Word) (w : Word)
    (h1 : endsWithAny [str "man", str "wan"] w = true)
    (h2 : IsRootWord rw (removeEnd [str "man", str "wan"] w) = true) :
    removeDerivationPeople rw w = removeEnd [str "man", str "wan"] w := by
  unfold removeDerivationPeople
  dsimp only
  rw [if_pos h1, if_pos (by rw [h1, h2]; rfl)]

theorem removeDerivationPeople_eq_wati (rw : List Word) (w : Word)
    (h1 : endsWithAny [str "man", str "wan"] w = false)
    (h2 : endsWithAny [str "wati"] w = true)
    (h3 : IsRootWord rw (removeEnd [str "wati"] w) = true) :
    removeDerivationPeople rw w = removeEnd [str "wati"] w := by
  unfold removeDerivationPeople
  dsimp only
  rw [if_neg (by rw [h1]; simp), if_neg (Bool.eq_false_iff.mp h1), if_pos h2,
    if_pos (by rw [h2, h3]; rfl)]

/-- C19. People suffix on a root: for a root `x` and a suffix `s` among `man`,
`wan`, `wati`, `removeDerivationPeople (x ++ s) = x`; and for every word the
result of `removeDerivationPeople` is the word itself or a root. -/
theorem removeDerivationPeople_on_root (rootWords : List Word) (x : Word)
    (hx : IsRootWord rootWords x = true) :
    (∀ s ∈ [str "man", str "wan", str "wati"], removeDerivationPeople rootWords (x ++ s) = x) ∧
    (∀ w, removeDerivationPeople rootWords w = w ∨
      IsRootWord rootWords (removeDerivationPeople rootWords w) = true) := by
  refine ⟨?_, removeDerivationPeople_root_or_self rootWords⟩
  intro s hs
  simp only [List.mem_cons, List.mem_singleton, List.not_mem_nil, or_false] at hs
  rcases hs with rfl | rfl | rfl
  · have he : endsWithAny [str "man", str "wan"] (x ++ str "man") = true :=
      (endsWithAny_iff _ _).mpr ⟨str "man", by decide, x, rfl⟩
    have hr : removeEnd [str "man", str "wan"] (x ++ str "man") = x := by
      simp [removeEnd, str]
    rw [removeDerivationPeople_eq_first _ _ he (by rw [hr]; exact hx), hr]
  · have he : endsWithAny [str "man", str "wan"] (x ++ str "wan") = true :=
      (endsWithAny_iff _ _).mpr ⟨str "wan", by decide, x, rfl⟩
    have hr : removeEnd [str "man", str "wan"] (x ++ str "wan") = x := by
      simp [removeEnd, str, List.isSuffixOf, List.isPrefixOf, -List.isSuffixOf_iff_suffix,
        -List.isPrefixOf_iff_prefix]
    rw [removeDerivationPeople_eq_first _ _ he (by rw [hr]; exact hx), hr]
  · have he1 : endsWithAny [str "man", str "wan"] (x ++ str "wati") = false := by
      simp [endsWithAny, str, List.isSuffixOf, List.isPrefixOf, -List.isSuffixOf_iff_suffix,
        -List.isPrefixOf_iff_prefix]
    have he : endsWithAny [str "wati"] (x ++ str "wati") = true :=
      (endsWithAny_iff _ _).mpr ⟨str "wati", by decide, x, rfl⟩
    have hr : removeEnd [str "wati"] (x ++ str "wati") = x := by
      simp [removeEnd, str]
    rw [removeDerivationPeople_eq_wati _ _ he1 he (by rw [hr]; exact hx), hr]

/-- Instance of `removeDerivationPeople_on_root`: the root "budaya" and "budayawan". -/
theorem removeDerivationPeople_on_root_witness :
    IsRootWord [str "budaya", str "karya"] (str "budaya") = true ∧
    removeDerivationPeople [str "budaya", str "karya"] (str "budaya" ++ str "wan")
      = str "budaya" :=
  ⟨by decide,
    (removeDerivationPeople_on_root [str "budaya", str "karya"] (str "budaya") (by decide)).1
      (str "wan") (by decide)⟩

/-! ## The disallowed combinations -/

theorem lowerOrHyphen_iff (c : Char) :
    lowerOrHyphen c = true ↔ (('a' ≤ c ∧ c ≤ 'z') ∨ c = '-') := by
  unfold lowerOrHyphen Char.isLower
  simp only [Bool.or_eq_true, Bool.and_eq_true, decide_eq_true_eq, beq_iff_eq, ge_iff_le]
  rfl

theorem contains_word_iff (alts : List Word) (w : Word) :
    alts.contains w = true ↔ w ∈ alts := by
  rw [List.contains_iff_exists_mem_beq]
  constructor
  · rintro ⟨a, ha, h⟩
    rw [beq_iff_eq] at h
    exact h ▸ ha
  · intro h
    exact ⟨w, h, beq_self_eq_true w⟩

theorem matchMiddleEnd_iff (alts : List Word) (w : Word) :
    matchMiddleEnd alts w = true ↔
      ∃ m s, m ≠ [] ∧ (∀ c ∈ m, lowerOrHyphen c = true) ∧ s ∈ alts ∧ w = m ++ s := by
  induction w with
  | nil =>
    simp only [matchMiddleEnd, Bool.false_eq_true, false_iff]
    rintro ⟨m, s, hm, _, _, h⟩
    exact hm (List.append_eq_nil.mp h.symm).1
  | cons c cs ih =>
    simp only [matchMiddleEnd, Bool.and_eq_true, Bool.or_eq_true, contains_word_iff, ih]
    constructor
    · rintro ⟨hc, h | ⟨m, s, _, hm, hs, rfl⟩⟩
      · exact ⟨[c], cs, by simp, by simpa using hc, h, rfl⟩
      · refine ⟨c :: m, s, by simp, ?_, hs, rfl⟩
        intro a ha
        rcases List.mem_cons.mp ha with rfl | ha
        · exact hc
        · exact hm a ha
    · rintro ⟨m, s, hne, hm, hs, h⟩
      obtain ⟨a, m', rfl⟩ := List.exists_cons_of_ne_nil hne
      rw [List.cons_append, List.cons.injEq] at h
      obtain ⟨rfl, rfl⟩ := h
      refine ⟨hm c (List.mem_cons_self _ _), ?_⟩
      by_cases hm' : m' = []
      · subst hm'
        exact Or.inl (by simpa using hs)
      · exact Or.inr ⟨m', s, hm', fun a ha => hm a (List.mem_cons_of_mem _ ha), hs, rfl⟩

theorem matchAffixes_iff (pres alts : List Word) (w : Word) :
    matchAffixes pres alts w = true ↔
      ∃ p ∈ pres, ∃ s ∈ alts, ∃ m, m ≠ [] ∧ (∀ c ∈ m, lowerOrHyphen c = true) ∧
        w = p ++ m ++ s := by
  unfold matchAffixes
  simp only [List.any_eq_true, Bool.and_eq_true, matchMiddleEnd_iff]
  constructor
  · rintro ⟨p, hp, hpre, m, s, hne, hm, hs, h⟩
    obtain ⟨t, rfl⟩ := List.isPrefixOf_iff_prefix.mp hpre
    rw [List.drop_left] at h
    subst h
    exact ⟨p, hp, s, hs, m, hne, hm, by rw [List.append_assoc]⟩
  · rintro ⟨p, hp, s, hs, m, hne, hm, rfl⟩
    refine ⟨p, hp, ?_, m, s, hne, hm, hs, ?_⟩
    · rw [List.isPrefixOf_iff_prefix, List.append_assoc]
      exact ⟨_, rfl⟩
    · rw [List.append_assoc, List.drop_left]

theorem isDisallowedPrefixSuffixes_eq_or (w : Word) :
    isDisallowedPrefixSuffixes w =
      (matchAffixes [str "be"] [str "i"] w || matchAffixes [str "di"] [str "an"] w
        || matchAffixes [str "ke"] [str "i", str "kan"] w
        || matchAffixes [str "me"] [str "an"] w
        || matchAffixes [str "se"] [str "i", str "kan"] w
        || matchAffixes [str "te"] [str "an"] w) := by
  unfold isDisallowedPrefixSuffixes
  generalize matchAffixes [str "be"] [str "i"] w = b1
  generalize matchAffixes [str "di"] [str "an"] w = b2
  generalize matchAffixes [str "ke"] [str "i", str "kan"] w = b3
  generalize matchAffixes [str "me"] [str "an"] w = b4
  generalize matchAffixes [str "se"] [str "i", str "kan"] w = b5
  generalize matchAffixes [str "te"] [str "an"] w = b6
  cases b1 <;> cases b2 <;> cases b3 <;> cases b4 <;> cases b5 <;> cases b6 <;> rfl

/-- C20. `isDisallowedPrefixSuffixes w` is true exactly when `w = p ++ m ++ s` for a
non-empty middle `m` made only of the characters `a`-`z` and `-`, and a pair
`(p, s)` among (be, i), (di, an), (ke, i), (ke, kan), (me, an), (se, i), (se, kan),
(te, an). It is true for "berlari", "dikeabadian", "kembalikan", "merasakan",
"selagi", "tekaan" and false for "bercinta", "dicinta", "mencinta". -/
theorem isDisallowedPrefixSuffixes_spec :
    (∀ w : Word, isDisallowedPrefixSuffixes w = true ↔
      ∃ p s, (p, s) ∈ [(str "be", str "i"), (str "di", str "an"), (str "ke", str "i"),
        (str "ke", str "kan"), (str "me", str "an"), (str "se", str "i"),
        (str "se", str "kan"), (str "te", str "an")] ∧
        ∃ m, m ≠ [] ∧ (∀ c ∈ m, ('a' ≤ c ∧ c ≤ 'z') ∨ c = '-') ∧ w = p ++ m ++ s) ∧
    (∀ w ∈ [str "berlari", str "dikeabadian", str "kembalikan", str "merasakan",
      str "selagi", str "tekaan"], isDisallowedPrefixSuffixes w = true) ∧
    (∀ w ∈ [str "bercinta", str "dicinta", str "mencinta"],
      isDisallowedPrefixSuffixes w = false) := by
  refine ⟨?_, by decide, by decide⟩
  intro w
  rw [isDisallowedPrefixSuffixes_eq_or]
  simp only [Bool.or_eq_true, matchAffixes_iff]
  constructor
  · intro h
    have build : ∀ (ps ss : List Word),
        (∀ p ∈ ps, ∀ s ∈ ss, (p, s) ∈ [(str "be", str "i"), (str "di", str "an"), (str "ke", str "i"),
        (str "ke", str "kan"), (str "me", str "an"), (str "se", str "i"),
        (str "se", str "kan"), (str "te", str "an")]) →
        (∃ p ∈ ps, ∃ s ∈ ss, ∃ m, m ≠ [] ∧ (∀ c ∈ m, lowerOrHyphen c = true) ∧
          w = p ++ m ++ s) →
        ∃ p s, (p, s) ∈ [(str "be", str "i"), (str "di", str "an"), (str "ke", str "i"),
        (str "ke", str "kan"), (str "me", str "an"), (str "se", str "i"),
        (str "se", str "kan"), (str "te", str "an")] ∧
          ∃ m, m ≠ [] ∧ (∀ c ∈ m, ('a' ≤ c ∧ c ≤ 'z') ∨ c = '-') ∧ w = p ++ m ++ s := by
      rintro ps ss hall ⟨p, hp, s, hs, m, hne, hm, hw⟩
      exact ⟨p, s, hall p hp s hs, m, hne, fun c hc => (lowerOrHyphen_iff c).mp (hm c hc), hw⟩
    rcases h with ((((h | h) | h) | h) | h) | h
    · exact build _ _ (by decide) h
    · exact build _ _ (by decide) h
    · exact build _ _ (by decide) h
    · exact build _ _ (by decide) h
    · exact build _ _ (by decide) h
    · exact build _ _ (by decide) h
  · rintro ⟨p, s, hps, m, hne, hm, hw⟩
    have hm' : ∀ c ∈ m, lowerOrHyphen c = true := fun c hc => (lowerOrHyphen_iff c).mpr (hm c hc)
    have found : ∀ (ps ss : List Word), p ∈ ps → s ∈ ss →
        ∃ p ∈ ps, ∃ s ∈ ss, ∃ m, m ≠ [] ∧ (∀ c ∈ m, lowerOrHyphen c = true) ∧
          w = p ++ m ++ s :=
      fun ps ss hp hs => ⟨p, hp, s, hs, m, hne, hm', hw⟩
    simp only [List.mem_cons, List.mem_singleton, List.not_mem_nil, or_false,
      Prod.mk.injEq] at hps
    rcases hps with ⟨hp, hs⟩ | ⟨hp, hs⟩ | ⟨hp, hs⟩ | ⟨hp, hs⟩ | ⟨hp, hs⟩ | ⟨hp, hs⟩ |
      ⟨hp, hs⟩ | ⟨hp, hs⟩
    · exact Or.inl (Or.inl (Or.inl (Or.inl (Or.inl (found _ _ (by simp [hp]) (by simp [hs]))))))
    · exact Or.inl (Or.inl (Or.inl (Or.inl (Or.inr (found _ _ (by simp [hp]) (by simp [hs]))))))
    · exact Or.inl (Or.inl (Or.inl (Or.inr (found _ _ (by simp [hp]) (by simp [hs])))))
    · exact Or.inl (Or.inl (Or.inl (Or.inr (found _ _ (by simp [hp]) (by simp [hs])))))
    · exact Or.inl (Or.inl (Or.inr (found _ _ (by simp [hp]) (by simp [hs]))))
    · exact Or.inl (Or.inr (found _ _ (by simp [hp]) (by simp [hs])))
    · exact Or.inl (Or.inr (found _ _ (by simp [hp]) (by simp [hs])))
    · exact Or.inr (found _ _ (by simp [hp]) (by simp [hs]))

/-! ## The rule-precedence predicate -/

theorem isRulePrecedence_eq_or (w : Word) :
    isRulePrecedence w =
      (matchAffixes [str "be"] [str "lah", str "an"] w
        || matchAffixes [str "di", str "me", str "pe", str "te"] [str "i"] w) := by
  unfold isRulePrecedence
  generalize matchAffixes [str "be"] [str "lah", str "an"] w = b1
  generalize matchAffixes [str "di", str "me", str "pe", str "te"] [str "i"] w = b2
  cases b1 <;> cases b2 <;> rfl

/-- C21. `isRulePrecedence w` is true exactly when `w = p ++ m ++ s` for a non-empty
middle `m` made only of the characters `a`-`z` and `-`, and either `p` is `be`
with `s` among `lah`, `an`, or `p` is among `di`, `me`, `pe`, `te` with `s` equal
to `i`. It is true for "berkawanlah", "dicintai", "mencintai" and false for
"dicinta", "mencinta". -/
theorem isRulePrecedence_spec :
    (∀ w : Word, isRulePrecedence w = true ↔
      ∃ p s, ((p = str "be" ∧ s ∈ [str "lah", str "an"]) ∨
          (p ∈ [str "di", str "me", str "pe", str "te"] ∧ s = str "i")) ∧
        ∃ m, m ≠ [] ∧ (∀ c ∈ m, ('a' ≤ c ∧ c ≤ 'z') ∨ c = '-') ∧ w = p ++ m ++ s) ∧
    (∀ w ∈ [str "berkawanlah", str "dicintai", str "mencintai"], isRulePrecedence w = true) ∧
    (∀ w ∈ [str "dicinta", str "mencinta"], isRulePrecedence w = false) := by
  refine ⟨?_, by decide, by decide⟩
  intro w
  rw [isRulePrecedence_eq_or]
  simp only [Bool.or_eq_true, matchAffixes_iff]
  constructor
  · rintro (⟨p, hp, s, hs, m, hne, hm, hw⟩ | ⟨p, hp, s, hs, m, hne, hm, hw⟩)
    · exact ⟨p, s, Or.inl ⟨List.mem_singleton.mp hp, hs⟩, m, hne,
        fun c hc => (lowerOrHyphen_iff c).mp (hm c hc), hw⟩
    · exact ⟨p, s, Or.inr ⟨hp, List.mem_singleton.mp hs⟩, m, hne,
        fun c hc => (lowerOrHyphen_iff c).mp (hm c hc), hw⟩
  · rintro ⟨p, s, hps, m, hne, hm, hw⟩
    have hm' : ∀ c ∈ m, lowerOrHyphen c = true := fun c hc => (lowerOrHyphen_iff c).mpr (hm c hc)
    rcases hps with ⟨hp, hs⟩ | ⟨hp, hs⟩
    · exact Or.inl ⟨p, List.mem_singleton.mpr hp, s, hs, m, hne, hm', hw⟩
    · exact Or.inr ⟨p, hp, s, List.mem_singleton.mpr hs, m, hne, hm', hw⟩

/-! ## The two guard predicates never agree -/

theorem matchAffixes_key (pres alts : List Word) (w : Word)
    (h : matchAffixes pres alts w = true) (hp : ∀ p ∈ pres, p.length = 2)
    (hs : ∀ s ∈ alts, s ≠ []) :
    ∃ p ∈ pres, ∃ s ∈ alts, w.take 2 = p ∧ w.getLast? = s.getLast? := by
  obtain ⟨p, hpm, s, hsm, m, _, _, rfl⟩ := (matchAffixes_iff pres alts w).mp h
  refine ⟨p, hpm, s, hsm, ?_, ?_⟩
  · rw [List.append_assoc, ← hp p hpm, List.take_left']
    rfl
  · obtain ⟨a, l, rfl⟩ := List.exists_cons_of_ne_nil (hs s hsm)
    have hx : (a :: l).getLast? = some ((a :: l).getLast (List.cons_ne_nil _ _)) :=
      List.getLast?_eq_getLast _ _
    rw [List.getLast?_append, List.getLast?_append, hx]
    rfl

theorem matchAffixes_clash (pres1 alts1 pres2 alts2 : List Word) (w : Word)
    (hp1 : ∀ p ∈ pres1, p.length = 2) (hs1 : ∀ s ∈ alts1, s ≠ [])
    (hp2 : ∀ p ∈ pres2, p.length = 2) (hs2 : ∀ s ∈ alts2, s ≠ [])
    (hd : ∀ p1 ∈ pres1, ∀ s1 ∈ alts1, ∀ p2 ∈ pres2, ∀ s2 ∈ alts2,
      p1 = p2 → s1.getLast? = s2.getLast? → False)
    (h1 : matchAffixes pres1 alts1 w = true) (h2 : matchAffixes pres2 alts2 w = true) :
    False := by
  obtain ⟨p1, hp1m, s1, hs1m, e1, f1⟩ := matchAffixes_key _ _ _ h1 hp1 hs1
  obtain ⟨p2, hp2m, s2, hs2m, e2, f2⟩ := matchAffixes_key _ _ _ h2 hp2 hs2
  exact hd p1 hp1m s1 hs1m p2 hp2m s2 hs2m (e1.symm.trans e2) (f1.symm.trans f2)

/-- C22. The two guard predicates are mutually exclusive: no word satisfies both
`isRulePrecedence` and `isDisallowedPrefixSuffixes`, so a disallowed verdict from
which the rule-precedence words are excepted is the same verdict. -/
theorem guards_exclusive (w : Word) :
    (isRulePrecedence w && isDisallowedPrefixSuffixes w) = false ∧
    (isDisallowedPrefixSuffixes w && !isRulePrecedence w) = isDisallowedPrefixSuffixes w := by
  have key : (isRulePrecedence w && isDisallowedPrefixSuffixes w) = false := by
    rw [Bool.eq_false_iff]
    intro h
    rw [Bool.and_eq_true, isRulePrecedence_eq_or, isDisallowedPrefixSuffixes_eq_or] at h
    obtain ⟨h1, h2⟩ := h
    simp only [Bool.or_eq_true] at h1 h2
    rcases h1 with h1 | h1 <;> rcases h2 with ((((h2 | h2) | h2) | h2) | h2) | h2 <;>
      exact matchAffixes_clash _ _ _ _ w (by decide) (by decide) (by decide) (by decide)
        (by decide) h1 h2
  refine ⟨key, ?_⟩
  cases h1 : isRulePrecedence w <;> cases h2 : isDisallowedPrefixSuffixes w <;>
    simp [h1, h2] at key ⊢

/-! ## What the prefix remover returns -/

/-- C23. `removeDerivationPrefixes` returns the untouched input or a word of the
dictionary, for every dictionary and every word. This includes the case where
`word` was replaced by the folded suffix-stripped form before the `pe-` block:
with an empty dictionary, "mempelajari" (folded to "pelajari") comes back as
"mempelajari". -/
theorem removeDerivationPrefixes_spec :
    (∀ (rootWords : List Word) (w : Word),
      removeDerivationPrefixes rootWords w = w ∨ removeDerivationPrefixes rootWords w ∈ rootWords) ∧
    (attempts [] (meCandidates (str "mempelajari")) [] = Flow.next (str "pelajari") ∧
      removeDerivationPrefixes [] (str "mempelajari") = str "mempelajari") := by
  refine ⟨?_, by decide⟩
  intro rootWords w
  rcases removeDerivationPrefixes_root_or_self rootWords w with h | h
  · exact Or.inl h
  · exact Or.inr (of_decide_eq_true h)

/-! ## The reduplicative rule -/

/-- C24 fails on the code: "lelaki" has the shape `C e C V rest` (`l`, `e`, `l`, `a`,
"ki"), does not begin with `di`, `ke` or `se`, and "laki", the word without its
first two characters, is in the dictionary; yet `removeDerivationPrefixes`
returns "lelaki", and so does `Stemm`. The test of the rule never succeeds. -/
theorem reduplicative_rule_fails :
    (str "lelaki").drop 2 = str "laki" ∧
    IsRootWord [str "laki"] (str "laki") = true ∧
    (∀ w : Word, matchReduplicative w = false) ∧
    reduplicativeCandidates (str "lelaki") = [str "laki"] ∧
    removeDerivationPrefixes [str "laki"] (str "lelaki") = str "lelaki" ∧
    Stemm Char.toLower [str "laki"] [str "lelaki"] = [str "lelaki"] := by
  refine ⟨by decide, by decide, fun _ => rfl, by decide, by decide, by decide⟩

/-! ## Rules of the `me-` block -/

/-- A word that reaches the `me-` block with `strRemovedDerivSuff` still empty and
for which a rule of that block validates: the validated form is returned. -/
theorem removeDerivationPrefixes_me_ret (rw : List Word) (w r : Word)
    (h1 : (startsWith (lits "di" ++ [nonSpace]) w
      || startsWith ([oneOf "ks"] ++ lits "e" ++ [nonSpace]) w) = false)
    (h3 : startsWith ([oneOf "tmbp"] ++ lits "e" ++ [nonSpace]) w = true)
    (hbe : beCandidates w = [])
    (hte : startsWith (lits "te" ++ [nonSpace]) w = false)
    (h : attempts rw (meCandidates w) [] = .ret r) :
    removeDerivationPrefixes rw w = r := by
  rw [removeDerivationPrefixes_affixed _ _ h1 h3]
  rw [hbe, show attempts rw [] [] = Flow.next [] by rfl]
  dsimp only
  rw [teBlock_of_not_te _ _ _ hte]
  dsimp only
  rw [h]

/-- C25, as stated, fails: "memberikan" is `member` followed by the root "ikan", but
with "beri" in the dictionary `removeDerivationPrefixes` returns "beri", the
suffix-stripped form of the plain `mem-` strip "berikan". -/
theorem member_exception_counterexample :
    str "memberikan" = str "member" ++ str "ikan" ∧
    IsRootWord [str "beri", str "ikan"] (str "ikan") = true ∧
    removeDerivationPrefixes [str "beri", str "ikan"] (str "memberikan") = str "beri" ∧
    removeDerivationPrefixes [str "beri", str "ikan"] (str "memberikan") ≠ str "ikan" := by
  decide

/-- C25, amended. For a word `"member" ++ x` with `x` a non-empty root, the plain
`mem-` strip is checked first: `removeDerivationPrefixes` returns `"ber" ++ x`
when that is a root, else the suffix-stripped form of `"ber" ++ x` when that is
a root, and `x` only when neither is. -/
theorem member_exception_amended (rootWords : List Word) (x : Word) (hx : x ≠ [])
    (hroot : IsRootWord rootWords x = true) :
    (IsRootWord rootWords (str "ber" ++ x) = true →
      removeDerivationPrefixes rootWords (str "member" ++ x) = str "ber" ++ x) ∧
    (IsRootWord rootWords (str "ber" ++ x) = false →
      IsRootWord rootWords (removeDerivationSuffixes rootWords (str "ber" ++ x)) = true →
      removeDerivationPrefixes rootWords (str "member" ++ x) =
        removeDerivationSuffixes rootWords (str "ber" ++ x)) ∧
    (IsRootWord rootWords (str "ber" ++ x) = false →
      IsRootWord rootWords (removeDerivationSuffixes rootWords (str "ber" ++ x)) = false →
      removeDerivationPrefixes rootWords (str "member" ++ x) = x) := by
  have _ := hx
  have h1 : (startsWith (lits "di" ++ [nonSpace]) (str "member" ++ x)
      || startsWith ([oneOf "ks"] ++ lits "e" ++ [nonSpace]) (str "member" ++ x)) = false := by
    simp [startsWith, lits, str, oneOf]
  have h3 : startsWith ([oneOf "tmbp"] ++ lits "e" ++ [nonSpace]) (str "member" ++ x) = true := by
    simp [startsWith, lits, str, oneOf, nonSpace, noneOf]
  have hbe : beCandidates (str "member" ++ x) = [] := by
    simp [beCandidates, startsWith, lits, str]
  have hte : startsWith (lits "te" ++ [nonSpace]) (str "member" ++ x) = false := by
    simp [startsWith, lits, str]
  have hme : meCandidates (str "member" ++ x) = [str "ber" ++ x, x] := by
    simp [meCandidates, startsWith, lits, str, oneOf, vowel, nonSpace, noneOf, replaceAtStart]
  refine ⟨?_, ?_, ?_⟩
  · intro hb
    apply removeDerivationPrefixes_me_ret _ _ _ h1 h3 hbe hte
    rw [hme, attempts_hit _ _ _ _ hb]
  · intro hb hs
    apply removeDerivationPrefixes_me_ret _ _ _ h1 h3 hbe hte
    rw [hme, attempts_hit_suffix _ _ _ _ hb hs]
  · intro hb hs
    apply removeDerivationPrefixes_me_ret _ _ _ h1 h3 hbe hte
    rw [hme, attempts_miss _ _ _ _ hb hs, attempts_hit _ _ _ _ hroot]

/-- Instance of `member_exception_amended`: "memberdaya" in the dictionary `["daya"]`,
where neither "berdaya" nor a suffix-stripped form of it is a root. -/
theorem member_exception_amended_witness :
    str "daya" ≠ [] ∧
    IsRootWord [str "daya"] (str "daya") = true ∧
    IsRootWord [str "daya"] (str "ber" ++ str "daya") = false ∧
    IsRootWord [str "daya"] (removeDerivationSuffixes [str "daya"] (str "ber" ++ str "daya"))
      = false ∧
    removeDerivationPrefixes [str "daya"] (str "member" ++ str "daya") = str "daya" :=
  ⟨by decide, by decide, by decide, by decide,
    (member_exception_amended [str "daya"] (str "daya") (by decide) (by decide)).2.2
      (by decide) (by decide)⟩

/-! ## `mem-` before a vowel -/

theorem not_bfvp_of_vowel (v : Char) (hv : vowel v = true) : oneOf "bfvp" v = false := by
  unfold vowel oneOf at hv
  have hmem : v ∈ "aiueo".toList := by
    obtain ⟨a, ha, hb⟩ := List.contains_iff_exists_mem_beq.mp hv
    rw [beq_iff_eq] at hb
    exact hb ▸ ha
  clear hv
  revert hmem
  revert v
  decide

theorem not_lrwyv_m : oneOf "lrwyv" 'm' = false := by decide

/-- The `me-` block on `"mem" ++ t`, for `t` beginning with a vowel followed by a
character that is not a blank: the candidates are `"m" ++ t`, then `"p" ++ t`. -/
theorem removeDerivationPrefixes_mem_vowel (rw : List Word) (v c : Char) (rest : Word)
    (hv : vowel v = true) (hc : nonSpace c = true) :
    (IsRootWord rw (str "m" ++ v :: c :: rest) = true →
      removeDerivationPrefixes rw (str "mem" ++ v :: c :: rest) = str "m" ++ v :: c :: rest) ∧
    (IsRootWord rw (str "m" ++ v :: c :: rest) = false →
      IsRootWord rw (removeDerivationSuffixes rw (str "m" ++ v :: c :: rest)) = false →
      IsRootWord rw (str "p" ++ v :: c :: rest) = true →
      removeDerivationPrefixes rw (str "mem" ++ v :: c :: rest)
        = str "p" ++ v :: c :: rest) := by
  have hb : oneOf "bfvp" v = false := not_bfvp_of_vowel v hv
  have h1 : (startsWith (lits "di" ++ [nonSpace]) (str "mem" ++ v :: c :: rest)
      || startsWith ([oneOf "ks"] ++ lits "e" ++ [nonSpace]) (str "mem" ++ v :: c :: rest))
      = false := by
    simp [startsWith, lits, str, oneOf]
  have h3 : startsWith ([oneOf "tmbp"] ++ lits "e" ++ [nonSpace]) (str "mem" ++ v :: c :: rest)
      = true := by
    simp [startsWith, lits, str, oneOf, nonSpace, noneOf]
  have hbe : beCandidates (str "mem" ++ v :: c :: rest) = [] := by
    simp [beCandidates, startsWith, lits, str]
  have hte : startsWith (lits "te" ++ [nonSpace]) (str "mem" ++ v :: c :: rest) = false := by
    simp [startsWith, lits, str]
  have hme : meCandidates (str "mem" ++ v :: c :: rest)
      = [str "m" ++ v :: c :: rest, str "p" ++ v :: c :: rest] := by
    have hmn : nonSpace 'm' = true := by decide
    simp [meCandidates, startsWith, lits, str, hmn, not_lrwyv_m, hb, hv, hc, replaceAtStart]
  refine ⟨?_, ?_⟩
  · intro hm
    apply removeDerivationPrefixes_me_ret _ _ _ h1 h3 hbe hte
    rw [hme, attempts_hit _ _ _ _ hm]
  · intro hm hs hp
    apply removeDerivationPrefixes_me_ret _ _ _ h1 h3 hbe hte
    rw [hme, attempts_miss _ _ _ _ hm hs, attempts_hit _ _ _ _ hp]

/-- C26. `mem-` before a vowel tries the `m-` restoration before the `p-` one. For
`w = "mem" ++ t` where `t` begins with a vowel and goes on with a further
character that is not a blank (a letter, say): (i) if `"m" ++ t` is a root the
result is `"m" ++ t`, whether or not `"p" ++ t` is a root; (ii) if neither
`"m" ++ t` nor its suffix-stripped form is a root and `"p" ++ t` is a root, the
result is `"p" ++ t`. So with "pukul" a root and "memukul", "mukul" no roots,
`Stemm` maps "memukul" to "pukul". The lower-casing map is assumed to fix the
lower-case letters `a`-`z`. -/
theorem mem_vowel_restoration (lc : Char → Char) (hlc : ∀ c, c.isLower = true → lc c = c)
    (rootWords : List Word) (v c : Char) (rest : Word)
    (hv : vowel v = true) (hc : nonSpace c = true) :
    (IsRootWord rootWords (str "m" ++ v :: c :: rest) = true →
      removeDerivationPrefixes rootWords (str "mem" ++ v :: c :: rest)
        = str "m" ++ v :: c :: rest) ∧
    (IsRootWord rootWords (str "m" ++ v :: c :: rest) = false →
      IsRootWord rootWords (removeDerivationSuffixes rootWords (str "m" ++ v :: c :: rest))
        = false →
      IsRootWord rootWords (str "p" ++ v :: c :: rest) = true →
      removeDerivationPrefixes rootWords (str "mem" ++ v :: c :: rest)
        = str "p" ++ v :: c :: rest) ∧
    (str "pukul" ∈ rootWords → str "memukul" ∉ rootWords → str "mukul" ∉ rootWords →
      Stemm lc rootWords [str "memukul"] = [str "pukul"]) := by
  obtain ⟨hi, hii⟩ := removeDerivationPrefixes_mem_vowel rootWords v c rest hv hc
  refine ⟨hi, hii, ?_⟩
  intro hp hn1 hn2
  have rp : IsRootWord rootWords (str "pukul") = true := decide_eq_true hp
  have n1 : IsRootWord rootWords (str "memukul") = false := decide_eq_false hn1
  have n2 : IsRootWord rootWords (str "mukul") = false := decide_eq_false hn2
  have s1 : removeDerivationSuffixes rootWords (str "mukul") = str "mukul" :=
    removeDerivationSuffixes_eq_self _ _ (fun h => absurd h (by decide))
      (fun h => absurd h (by decide))
  have e0 : str "mem" ++ 'u' :: 'k' :: str "ul" = str "memukul" := by decide
  have e1 : str "m" ++ 'u' :: 'k' :: str "ul" = str "mukul" := by decide
  have e2 : str "p" ++ 'u' :: 'k' :: str "ul" = str "pukul" := by decide
  have p0 : removeDerivationPrefixes rootWords (str "memukul") = str "pukul" := by
    have h := (removeDerivationPrefixes_mem_vowel rootWords 'u' 'k' (str "ul") (by decide)
      (by decide)).2
    rw [e0, e1, e2, s1] at h
    exact h n2 n2 rp
  have hlow : ToLower lc (str "memukul") = str "memukul" := by
    rw [toLower_eq_self_iff]
    intro a ha
    exact hlc a (by revert a; decide)
  rw [Stemm_single]
  unfold stemOf
  dsimp only
  rw [hlow, if_neg (Bool.eq_false_iff.mp n1)]
  unfold removingProcess
  dsimp only
  rw [p0, if_pos rp]

/-- Instance of `mem_vowel_restoration`: "meminum" in a dictionary where both
"minum" and "pinum" are entered gives "minum". -/
theorem mem_vowel_restoration_witness :
    (∀ c, c.isLower = true → Char.toLower c = c) ∧
    vowel 'i' = true ∧ nonSpace 'n' = true ∧
    IsRootWord [str "minum", str "pinum", str "pukul"] (str "m" ++ 'i' :: 'n' :: str "um") = true ∧
    removeDerivationPrefixes [str "minum", str "pinum", str "pukul"]
      (str "mem" ++ 'i' :: 'n' :: str "um") = str "m" ++ 'i' :: 'n' :: str "um" ∧
    Stemm Char.toLower [str "minum", str "pinum", str "pukul"] [str "memukul"] = [str "pukul"] :=
  have h := mem_vowel_restoration Char.toLower toLower_of_isLower
    [str "minum", str "pinum", str "pukul"] 'i' 'n' (str "um") (by decide) (by decide)
  ⟨toLower_of_isLower, by decide, by decide, by decide, h.1 (by decide),
    h.2.2 (by decide) (by decide) (by decide)⟩

/-! ## Literal `terr-` -/

/-- C27. Literal `terr-` is never stripped: a word that begins with `terr` followed
by at least one more character that is not a blank (a letter, say) is returned
unchanged by `removeDerivationPrefixes`, whatever the dictionary contains, hence
also when the word without `ter` or without `te` is a root. -/
theorem terr_unchanged (rootWords : List Word) (c : Char) (rest : Word)
    (hc : nonSpace c = true) :
    removeDerivationPrefixes rootWords (str "terr" ++ c :: rest) = str "terr" ++ c :: rest := by
  have h1 : (startsWith (lits "di" ++ [nonSpace]) (str "terr" ++ c :: rest)
      || startsWith ([oneOf "ks"] ++ lits "e" ++ [nonSpace]) (str "terr" ++ c :: rest))
      = false := by
    simp [startsWith, lits, str, oneOf]
  have h3 : startsWith ([oneOf "tmbp"] ++ lits "e" ++ [nonSpace]) (str "terr" ++ c :: rest)
      = true := by
    simp [startsWith, lits, str, oneOf, nonSpace, noneOf]
  have hbe : beCandidates (str "terr" ++ c :: rest) = [] := by
    simp [beCandidates, startsWith, lits, str]
  have hte : teBlock rootWords (str "terr" ++ c :: rest) [] = .ret (str "terr" ++ c :: rest) := by
    have hrn : nonSpace 'r' = true := by decide
    simp [teBlock, startsWith, lits, str, hrn, hc]
  rw [removeDerivationPrefixes_affixed _ _ h1 h3]
  rw [hbe, show attempts rootWords [] [] = Flow.next [] by rfl]
  dsimp only
  rw [hte]

/-- Instance of `terr_unchanged`: "terrasa" with "rasa" and "rrasa" in the dictionary. -/
theorem terr_unchanged_witness :
    nonSpace 'a' = true ∧
    IsRootWord [str "rasa", str "rrasa"] ((str "terr" ++ 'a' :: str "sa").drop 3) = true ∧
    IsRootWord [str "rasa", str "rrasa"] ((str "terr" ++ 'a' :: str "sa").drop 2) = true ∧
    removeDerivationPrefixes [str "rasa", str "rrasa"] (str "terr" ++ 'a' :: str "sa")
      = str "terr" ++ 'a' :: str "sa" :=
  ⟨by decide, by decide, by decide,
    terr_unchanged [str "rasa", str "rrasa"] 'a' (str "sa") (by decide)⟩

end Stemmer
